import Mathlib

/- Shallow embedding, over exact rational arithmetic, of the streaming
technical-analysis indicators of the ta-rs repository: Minimum,
ExponentialMovingAverage, WindowedExponentialMovingAverage and
AverageTrueRange.  The IEEE positive-infinity sentinel used by the Minimum
tracker is modelled by the top element of `WithTop ℚ`; the only operations the
code performs on buffer values are strict comparisons, for which `WithTop ℚ`
agrees with IEEE semantics on finite values and the sentinel. -/

namespace TaRs

/-- Buffer value of the Minimum tracker: a finite rational or the sentinel. -/
abbrev V := WithTop ℚ

/- ------------------------------------------------------------------ -/
/- List access helpers (version-stable re-proofs of small facts).      -/
/- ------------------------------------------------------------------ -/

theorem getD_set_self {α : Type} (l : List α) (i : Nat) (a d : α) (h : i < l.length) :
    (l.set i a).getD i d = a := by
  induction l generalizing i with
  | nil => simp at h
  | cons b t ih =>
    cases i with
    | zero => rfl
    | succ j => simpa using ih j (by simpa using h)

theorem getD_set_ne {α : Type} (l : List α) (i j : Nat) (a d : α) (h : i ≠ j) :
    (l.set i a).getD j d = l.getD j d := by
  induction l generalizing i j with
  | nil => rfl
  | cons b t ih =>
    cases i with
    | zero =>
      cases j with
      | zero => exact absurd rfl h
      | succ j2 => rfl
    | succ i2 =>
      cases j with
      | zero => rfl
      | succ j2 => simpa using ih i2 j2 (by omega)

theorem getD_mem {α : Type} (l : List α) (i : Nat) (d : α) (h : i < l.length) :
    l.getD i d ∈ l := by
  induction l generalizing i with
  | nil => simp at h
  | cons b t ih =>
    cases i with
    | zero => simp
    | succ j =>
      simp only [List.getD_cons_succ]
      exact List.mem_cons_of_mem _ (ih j (by simpa using h))

theorem mem_of_mem_set {α : Type} (l : List α) (i : Nat) (a b : α)
    (h : b ∈ l.set i a) : b ∈ l ∨ b = a := by
  induction l generalizing i with
  | nil => simp at h
  | cons c t ih =>
    cases i with
    | zero =>
      rcases List.mem_cons.1 h with h1 | h1
      · exact Or.inr h1
      · exact Or.inl (List.mem_cons_of_mem _ h1)
    | succ j =>
      rcases List.mem_cons.1 h with h1 | h1
      · exact Or.inl (h1 ▸ List.mem_cons_self _ _)
      · rcases ih j h1 with h2 | h2
        · exact Or.inl (List.mem_cons_of_mem _ h2)
        · exact Or.inr h2

theorem getD_replicate {α : Type} (n i : Nat) (a d : α) (h : i < n) :
    (List.replicate n a).getD i d = a := by
  induction n generalizing i with
  | zero => omega
  | succ m ih =>
    cases i with
    | zero => rfl
    | succ j =>
      simp only [List.replicate_succ, List.getD_cons_succ]
      exact ih j (by omega)

theorem getD_of_ge_length {α : Type} (l : List α) (i : Nat) (d : α) (h : l.length ≤ i) :
    l.getD i d = d := by
  induction l generalizing i with
  | nil => rfl
  | cons b t ih =>
    cases i with
    | zero => simp at h
    | succ j => simpa using ih j (by simpa using h)

theorem drop_eq_getD_cons {α : Type} (l : List α) (i : Nat) (d : α) (h : i < l.length) :
    l.drop i = l.getD i d :: l.drop (i + 1) := by
  induction l generalizing i with
  | nil => simp at h
  | cons b t ih =>
    cases i with
    | zero => rfl
    | succ j => simpa using ih j (by simpa using h)

theorem drop_append_of_le {α : Type} (l1 l2 : List α) (i : Nat) (h : i ≤ l1.length) :
    (l1 ++ l2).drop i = l1.drop i ++ l2 := by
  induction l1 generalizing i with
  | nil =>
    cases i with
    | zero => rfl
    | succ j => simp at h
  | cons b t ih =>
    cases i with
    | zero => rfl
    | succ j => simpa using ih j (by simpa using h)

/- ------------------------------------------------------------------ -/
/- Modular index arithmetic of the circular buffers.                   -/
/- ------------------------------------------------------------------ -/

/-- Advance of a circular write index, as in the source
`if idx + 1 < period { idx + 1 } else { 0 }`. -/
def bump (p c : Nat) : Nat := if c + 1 < p then c + 1 else 0

theorem bump_eq_mod (p c : Nat) (hc : c < p) : bump p c = (c + 1) % p := by
  unfold bump
  by_cases h : c + 1 < p
  · simp [h, Nat.mod_eq_of_lt h]
  · have hcp : c + 1 = p := by omega
    simp [h, hcp]

theorem bump_lt (p c : Nat) (hp : 0 < p) : bump p c < p := by
  unfold bump
  by_cases h : c + 1 < p <;> simp [h] <;> omega

/-- The buffer slot holding the input that is `k` writes old (`k = 0` is the
slot most recently written), for current write index `c`. -/
def slotOf (p c k : Nat) : Nat := (c + (p - 1 - k)) % p

theorem slotOf_lt (p c k : Nat) (hp : 0 < p) : slotOf p c k < p :=
  Nat.mod_lt _ hp

theorem add_mod_ne (p c t : Nat) (hc : c < p) (ht1 : 1 ≤ t) (ht2 : t < p) :
    (c + t) % p ≠ c := by
  rcases Nat.lt_or_ge (c + t) p with h | h
  · rw [Nat.mod_eq_of_lt h]; omega
  · rw [Nat.mod_eq_sub_mod h, Nat.mod_eq_of_lt (by omega)]; omega

theorem slot_bump_zero (p c : Nat) (hc : c < p) : slotOf p (bump p c) 0 = c := by
  have hp : 0 < p := by omega
  rw [bump_eq_mod p c hc]
  unfold slotOf
  rw [Nat.mod_add_mod]
  have h1 : c + 1 + (p - 1 - 0) = c + p := by omega
  rw [h1, Nat.add_mod_right, Nat.mod_eq_of_lt hc]

theorem slot_bump_succ (p c k : Nat) (hc : c < p) (hk1 : 1 ≤ k) (hk2 : k < p) :
    slotOf p (bump p c) k = slotOf p c (k - 1) := by
  rw [bump_eq_mod p c hc]
  unfold slotOf
  rw [Nat.mod_add_mod]
  have h1 : c + 1 + (p - 1 - k) = c + (p - k) := by omega
  have h2 : p - 1 - (k - 1) = p - k := by omega
  rw [h1, h2]

theorem slot_ne_cur (p c k : Nat) (hc : c < p) (hk : k < p - 1) : slotOf p c k ≠ c := by
  unfold slotOf
  exact add_mod_ne p c (p - 1 - k) hc (by omega) (by omega)

theorem slot_last (p c : Nat) (hc : c < p) : slotOf p c (p - 1) = c := by
  unfold slotOf
  have h1 : p - 1 - (p - 1) = 0 := by omega
  rw [h1, Nat.add_zero, Nat.mod_eq_of_lt hc]

theorem slot_surj (p c j : Nat) (hc : c < p) (hj : j < p) :
    ∃ k, k < p ∧ slotOf p c k = j := by
  have hp : 0 < p := by omega
  refine ⟨(c + (p - 1) - j) % p, Nat.mod_lt _ hp, ?_⟩
  set a := c + (p - 1) with ha
  set k := (a - j) % p with hk
  have hdm : p * ((a - j) / p) + (a - j) % p = a - j := Nat.div_add_mod (a - j) p
  set Q := (a - j) / p with hQ
  have hkp : k < p := Nat.mod_lt _ hp
  have hja : j ≤ a := by omega
  unfold slotOf
  have h1 : c + (p - 1 - k) = a - k := by omega
  have h2 : a - k = p * Q + j := by omega
  rw [h1, h2, Nat.mul_add_mod, Nat.mod_eq_of_lt hj]

/- ------------------------------------------------------------------ -/
/- Minima of lists of buffer values.                                   -/
/- ------------------------------------------------------------------ -/

/-- Least element of a list of buffer values (the sentinel if empty). -/
def dequeMin (l : List V) : V := l.foldr min ⊤

theorem dequeMin_nil : dequeMin [] = ⊤ := rfl

theorem dequeMin_cons (v : V) (t : List V) : dequeMin (v :: t) = min v (dequeMin t) := rfl

theorem dequeMin_le (l : List V) (x : V) (hx : x ∈ l) : dequeMin l ≤ x := by
  induction l with
  | nil => simp at hx
  | cons v t ih =>
    rw [dequeMin_cons]
    rcases List.mem_cons.1 hx with h | h
    · exact h ▸ min_le_left _ _
    · exact le_trans (min_le_right _ _) (ih h)

theorem le_dequeMin (l : List V) (a : V) (h : ∀ x ∈ l, a ≤ x) : a ≤ dequeMin l := by
  induction l with
  | nil => exact le_top
  | cons v t ih =>
    rw [dequeMin_cons]
    exact le_min (h v (List.mem_cons_self _ _)) (ih fun x hx => h x (List.mem_cons_of_mem _ hx))

theorem dequeMin_mem (l : List V) (hl : l ≠ []) : dequeMin l ∈ l := by
  induction l with
  | nil => exact absurd rfl hl
  | cons v t ih =>
    rw [dequeMin_cons]
    rcases t with _ | ⟨w, t2⟩
    · simp [dequeMin_nil]
    · rcases min_cases v (dequeMin (w :: t2)) with ⟨h1, _⟩ | ⟨h1, _⟩
      · rw [h1]; exact List.mem_cons_self _ _
      · rw [h1]; exact List.mem_cons_of_mem _ (ih (by simp))

theorem dequeMin_eq_of (l : List V) (b : V) (hmem : b ∈ l) (hlb : ∀ x ∈ l, b ≤ x) :
    dequeMin l = b :=
  le_antisymm (dequeMin_le l b hmem) (le_dequeMin l b hlb)

theorem eq_top_of_dequeMin_eq_top (l : List V) (h : dequeMin l = ⊤) :
    ∀ x ∈ l, x = ⊤ := by
  intro x hx
  exact top_le_iff.1 (h ▸ dequeMin_le l x hx)

/-- Least element of a nonempty list of rationals (junk value 0 if empty). -/
def qMin : List ℚ → ℚ
  | [] => 0
  | [x] => x
  | x :: y :: t => min x (qMin (y :: t))

theorem qMin_cons2 (x y : ℚ) (t : List ℚ) : qMin (x :: y :: t) = min x (qMin (y :: t)) := rfl

theorem dequeMin_map_coe (l : List ℚ) (hl : l ≠ []) :
    dequeMin (l.map (fun q : ℚ => (q : V))) = (qMin l : ℚ) := by
  induction l with
  | nil => exact absurd rfl hl
  | cons x t ih =>
    rcases t with _ | ⟨y, t2⟩
    · simp [dequeMin, qMin]
    · have h2 := ih (by simp)
      rw [List.map_cons, dequeMin_cons, h2, qMin_cons2, WithTop.coe_min]

theorem coe_ne_top (q : ℚ) : (q : V) ≠ ⊤ := WithTop.coe_ne_top

/- ------------------------------------------------------------------ -/
/- The Minimum indicator (src/indicators/minimum.rs).                  -/
/- ------------------------------------------------------------------ -/

/-- State of `Minimum`: period, cached index of the current minimum, current
write index, and the circular buffer (initialized to sentinels). -/
structure MinState where
  period : Nat
  min_index : Nat
  cur_index : Nat
  deque : List V
deriving DecidableEq

/-- The scan loop of `Minimum::find_min_index`: `m` is the running minimum
(started at the sentinel), `idx` the index of the first value strictly below
all earlier ones, `i` the position of the head of the remaining list. -/
def findMinLoop : List V → Nat → V → Nat → Nat
  | [], _, _, idx => idx
  | v :: rest, i, m, idx =>
    if v < m then findMinLoop rest (i + 1) v i else findMinLoop rest (i + 1) m idx

/-- `Minimum::find_min_index`. -/
def find_min_index (s : MinState) : Nat := findMinLoop s.deque 0 ⊤ 0

/-- `Minimum::nexta(f64)`: overwrite the slot at the write index, maintain the
cached minimum index, advance the write index, and return the buffer value at
the cached minimum index. -/
def minNexta (s : MinState) (input : ℚ) : MinState × V :=
  let d1 := s.deque.set s.cur_index (input : V)
  let m1 :=
    if (input : V) < d1.getD s.min_index ⊤ then s.cur_index
    else if s.min_index = s.cur_index then findMinLoop d1 0 ⊤ 0
    else s.min_index
  let c1 := bump s.period s.cur_index
  ({ s with deque := d1, min_index := m1, cur_index := c1 }, d1.getD m1 ⊤)

/-- The just-constructed `Minimum` state: both indices 0, buffer full of
sentinels. -/
def minFresh (p : Nat) : MinState := ⟨p, 0, 0, List.replicate p ⊤⟩

/-- `Minimum::new(period)`: `InvalidParameter` (here `none`) iff `period = 0`. -/
def minNew (p : Nat) : Option MinState := if p = 0 then none else some (minFresh p)

/-- `Minimum::reset`: the loop `for i in 0..period { deque[i] = INFINITY }`.
The two indices are left untouched by the source. -/
def minReset (s : MinState) : MinState :=
  { s with deque := (List.range s.period).foldl (fun d i => d.set i (⊤ : V)) s.deque }

/-- State after feeding the inputs `xs` in order. -/
def minRunState (s : MinState) (xs : List ℚ) : MinState :=
  xs.foldl (fun t x => (minNexta t x).1) s

/-- The sequence of outputs produced while feeding the inputs `xs` in order. -/
def minOutputs (s : MinState) : List ℚ → List V
  | [] => []
  | x :: rest => (minNexta s x).2 :: minOutputs (minNexta s x).1 rest

/- Specification of the rescan loop: it returns the position of the least
buffer value (the first such position, 0 if every slot is the sentinel). -/

theorem findMinLoop_spec (l : List V) : ∀ (i : Nat) (m : V) (idx : Nat),
    (dequeMin l < m →
      ∃ j, j < l.length ∧ findMinLoop l i m idx = i + j ∧ l.getD j ⊤ = dequeMin l) ∧
    (¬ dequeMin l < m → findMinLoop l i m idx = idx) := by
  induction l with
  | nil =>
    intro i m idx
    constructor
    · intro h
      rw [dequeMin_nil] at h
      exact absurd h (by simp)
    · intro _
      rfl
  | cons v rest ih =>
    intro i m idx
    constructor
    · intro h
      rw [dequeMin_cons] at h
      by_cases hv : v < m
      · simp only [findMinLoop, if_pos hv]
        by_cases hr : dequeMin rest < v
        · obtain ⟨j, hj1, hj2, hj3⟩ := ((ih (i + 1) v i).1) hr
          refine ⟨j + 1, by simpa using hj1, by omega, ?_⟩
          rw [List.getD_cons_succ, hj3, dequeMin_cons, min_eq_right (le_of_lt hr)]
        · have hm : min v (dequeMin rest) = v := min_eq_left (not_lt.1 hr)
          refine ⟨0, by simp, ?_, ?_⟩
          · rw [(ih (i + 1) v i).2 hr]
            omega
          · rw [List.getD_cons_zero, dequeMin_cons, hm]
      · simp only [findMinLoop, if_neg hv]
        have hvm : m ≤ v := not_lt.1 hv
        have hr : dequeMin rest < m := by
          rcases le_total v (dequeMin rest) with h1 | h1
          · rw [min_eq_left h1] at h
            exact absurd h hv
          · rw [min_eq_right h1] at h
            exact h
        obtain ⟨j, hj1, hj2, hj3⟩ := ((ih (i + 1) m idx).1) hr
        refine ⟨j + 1, by simpa using hj1, by omega, ?_⟩
        have hmin : min v (dequeMin rest) = dequeMin rest :=
          min_eq_right (le_trans (le_of_lt hr) hvm)
        rw [List.getD_cons_succ, hj3, dequeMin_cons, hmin]
    · intro h
      rw [dequeMin_cons] at h
      have hv : ¬ v < m := fun hlt => h (lt_of_le_of_lt (min_le_left _ _) hlt)
      have hr : ¬ dequeMin rest < m := fun hlt => h (lt_of_le_of_lt (min_le_right _ _) hlt)
      simp only [findMinLoop, if_neg hv]
      exact (ih (i + 1) m idx).2 hr

theorem find_min_index_spec (d : List V) (hd : 0 < d.length) :
    findMinLoop d 0 ⊤ 0 < d.length ∧ d.getD (findMinLoop d 0 ⊤ 0) ⊤ = dequeMin d := by
  by_cases h : dequeMin d < ⊤
  · obtain ⟨j, hj1, hj2, hj3⟩ := ((findMinLoop_spec d 0 ⊤ 0).1) h
    rw [hj2]
    exact ⟨by omega, by simpa using hj3⟩
  · have h0 : findMinLoop d 0 ⊤ 0 = 0 := (findMinLoop_spec d 0 ⊤ 0).2 h
    have htop : dequeMin d = ⊤ := by
      rcases eq_or_lt_of_le (le_top (a := dequeMin d)) with h1 | h1
      · exact h1
      · exact absurd h1 h
    rw [h0, htop]
    refine ⟨hd, ?_⟩
    rcases d with _ | ⟨v, t⟩
    · simp at hd
    · rw [List.getD_cons_zero]
      exact eq_top_of_dequeMin_eq_top _ htop v (List.mem_cons_self _ _)

/- ------------------------------------------------------------------ -/
/- Further list helpers for the windowing arguments.                   -/
/- ------------------------------------------------------------------ -/

theorem getD_take {α : Type} (l : List α) (n i : Nat) (d : α) (h : i < n) :
    (l.take n).getD i d = l.getD i d := by
  induction l generalizing n i with
  | nil => simp
  | cons b t ih =>
    cases n with
    | zero => omega
    | succ m =>
      cases i with
      | zero => rfl
      | succ j =>
        simp only [List.take_succ_cons, List.getD_cons_succ]
        exact ih m j (by omega)

theorem take_all {α : Type} (l : List α) (n : Nat) (h : l.length ≤ n) : l.take n = l :=
  List.take_of_length_le h

theorem exists_getD_of_mem {α : Type} (l : List α) (d a : α) (h : a ∈ l) :
    ∃ k, k < l.length ∧ l.getD k d = a := by
  induction l with
  | nil => simp at h
  | cons b t ih =>
    rcases List.mem_cons.1 h with h1 | h1
    · exact ⟨0, by simp, h1.symm ▸ rfl⟩
    · obtain ⟨k, hk1, hk2⟩ := ih h1
      exact ⟨k + 1, by simpa using hk1, by simpa using hk2⟩

theorem dequeMin_append (a b : List V) :
    dequeMin (a ++ b) = min (dequeMin a) (dequeMin b) := by
  induction a with
  | nil =>
    rw [List.nil_append, dequeMin_nil]
    exact (min_eq_right le_top).symm
  | cons v t ih =>
    rw [List.cons_append, dequeMin_cons, ih, dequeMin_cons, min_assoc]

theorem dequeMin_reverse (l : List V) : dequeMin l.reverse = dequeMin l := by
  induction l with
  | nil => rfl
  | cons v t ih =>
    rw [List.reverse_cons, dequeMin_append, ih, dequeMin_cons, dequeMin_cons,
      dequeMin_nil, min_comm, inf_top_eq]

theorem qMin_le (l : List ℚ) (a : ℚ) (ha : a ∈ l) : qMin l ≤ a := by
  induction l with
  | nil => simp at ha
  | cons x t ih =>
    rcases t with _ | ⟨y, t2⟩
    · simp at ha
      simp [qMin, ha]
    · rw [qMin_cons2]
      rcases List.mem_cons.1 ha with h1 | h1
      · exact h1 ▸ min_le_left _ _
      · exact le_trans (min_le_right _ _) (ih h1)

theorem qMin_mem (l : List ℚ) (hl : l ≠ []) : qMin l ∈ l := by
  induction l with
  | nil => exact absurd rfl hl
  | cons x t ih =>
    rcases t with _ | ⟨y, t2⟩
    · simp [qMin]
    · rw [qMin_cons2]
      rcases min_cases x (qMin (y :: t2)) with ⟨h1, _⟩ | ⟨h1, _⟩
      · rw [h1]; exact List.mem_cons_self _ _
      · rw [h1]; exact List.mem_cons_of_mem _ (ih (by simp))

theorem qMin_reverse (l : List ℚ) (hl : l ≠ []) : qMin l.reverse = qMin l := by
  have hrev : l.reverse ≠ [] := by simpa using hl
  have h1 := dequeMin_map_coe l hl
  have h2 := dequeMin_map_coe l.reverse hrev
  rw [List.map_reverse, dequeMin_reverse, h1] at h2
  exact_mod_cast h2.symm

theorem reverse_drop_eq {α : Type} (l : List α) (k : Nat) :
    (l.drop k).reverse = l.reverse.take (l.length - k) := by
  induction l generalizing k with
  | nil => simp
  | cons b t ih =>
    cases k with
    | zero =>
      rw [List.drop_zero, Nat.sub_zero]
      exact (take_all _ _ (by simp)).symm
    | succ j =>
      simp only [List.drop_succ_cons, List.reverse_cons, List.length_cons]
      have h1 : t.length - j - t.reverse.length = 0 := by
        simp
      have h2 : t.length + 1 - (j + 1) = t.length - j := by omega
      rw [ih j, h2, List.take_append_eq_append_take, h1, List.take_zero, List.append_nil]

/- ------------------------------------------------------------------ -/
/- The Minimum invariant: buffer contents as a function of the most    -/
/- recent inputs, and the cached-minimum property.                     -/
/- ------------------------------------------------------------------ -/

/-- `MinInv p R s`: the buffer of `s` holds exactly the at-most-`p` most
recent inputs `R` (most recent first, slot `slotOf`) and sentinels in the
remaining slots; indices in bounds; the cached index points at a least
buffer value. -/
def MinInv (p : Nat) (R : List ℚ) (s : MinState) : Prop :=
  s.period = p ∧ s.deque.length = p ∧ s.cur_index < p ∧ s.min_index < p ∧
  R.length ≤ p ∧
  (∀ k, k < R.length → s.deque.getD (slotOf p s.cur_index k) ⊤ = ((R.getD k 0 : ℚ) : V)) ∧
  (∀ k, R.length ≤ k → k < p → s.deque.getD (slotOf p s.cur_index k) ⊤ = ⊤) ∧
  s.deque.getD s.min_index ⊤ = dequeMin s.deque

theorem dequeMin_replicate_top (n : Nat) : dequeMin (List.replicate n ⊤) = ⊤ := by
  induction n with
  | zero => rfl
  | succ m ih => rw [List.replicate_succ, dequeMin_cons, ih, min_self]

theorem minInv_all_top (p : Nat) (hp : 0 < p) (s : MinState) (hper : s.period = p)
    (hdq : s.deque = List.replicate p ⊤) (hc : s.cur_index < p) (hm : s.min_index < p) :
    MinInv p [] s := by
  refine ⟨hper, by rw [hdq]; simp, hc, hm, by simp, ?_, ?_, ?_⟩
  · intro k hk
    simp at hk
  · intro k _ hk2
    rw [hdq]
    exact getD_replicate p _ ⊤ ⊤ (slotOf_lt p s.cur_index k hp)
  · rw [hdq, getD_replicate p s.min_index ⊤ ⊤ hm, dequeMin_replicate_top]

/-- One step preserves the invariant, and the returned value is the least
buffer value of the successor state. -/
theorem minNexta_inv (p : Nat) (hp : 0 < p) (R : List ℚ) (s : MinState)
    (hs : MinInv p R s) (x : ℚ) :
    MinInv p ((x :: R).take p) (minNexta s x).1 ∧
    (minNexta s x).2 = dequeMin (minNexta s x).1.deque := by
  obtain ⟨hper, hlen, hc, hm, hRp, hP1, hP2, hMin⟩ := hs
  obtain ⟨q, hpq⟩ : ∃ q, p = q + 1 := ⟨p - 1, by omega⟩
  set c := s.cur_index with hcdef
  set m := s.min_index with hmdef
  set d := s.deque with hddef
  set d1 := d.set c ((x : ℚ) : V) with hd1def
  have hlen1 : d1.length = p := by rw [hd1def, List.length_set, hlen]
  have hclen : c < d.length := by omega
  have hget_c : d1.getD c ⊤ = ((x : ℚ) : V) := getD_set_self d c _ ⊤ hclen
  have hxmem : ((x : ℚ) : V) ∈ d1 := by
    rw [← hget_c]
    exact getD_mem d1 c ⊤ (by omega)
  -- characterize the new cached index
  set m1 := if ((x : ℚ) : V) < d1.getD m ⊤ then c
    else if m = c then findMinLoop d1 0 ⊤ 0 else m with hm1def
  have hm1 : m1 < p ∧ d1.getD m1 ⊤ = dequeMin d1 := by
    by_cases h1 : ((x : ℚ) : V) < d1.getD m ⊤
    · have hmc : m ≠ c := by
        intro he
        rw [he, hget_c] at h1
        exact lt_irrefl _ h1
      have hdm : d1.getD m ⊤ = d.getD m ⊤ := getD_set_ne d c m _ ⊤ (fun he => hmc he.symm)
      rw [hm1def, if_pos h1]
      refine ⟨hc, ?_⟩
      rw [hget_c]
      refine (dequeMin_eq_of d1 _ hxmem ?_).symm
      intro y hy
      rcases mem_of_mem_set d c _ y hy with h2 | h2
      · have h3 : dequeMin d ≤ y := dequeMin_le d y h2
        rw [hdm, hMin] at h1
        exact le_of_lt (lt_of_lt_of_le h1 h3)
      · exact le_of_eq h2.symm
    · by_cases h2 : m = c
      · rw [hm1def, if_neg h1, if_pos h2]
        have := find_min_index_spec d1 (by omega)
        exact ⟨by omega, this.2⟩
      · rw [hm1def, if_neg h1, if_neg h2]
        have hdm : d1.getD m ⊤ = d.getD m ⊤ := getD_set_ne d c m _ ⊤ (fun he => h2 he.symm)
        refine ⟨hm, ?_⟩
        rw [hdm, hMin]
        refine (dequeMin_eq_of d1 _ ?_ ?_).symm
        · rw [← hMin, ← hdm]
          exact getD_mem d1 m ⊤ (by omega)
        · intro y hy
          rcases mem_of_mem_set d c _ y hy with h3 | h3
          · exact dequeMin_le d y h3
          · rw [h3]
            rw [hdm, hMin] at h1
            exact not_lt.1 h1
  -- the new state and new recent list
  have hstep : minNexta s x =
      (⟨s.period, m1, bump s.period c, d1⟩, d1.getD m1 ⊤) := rfl
  rw [hper] at hstep
  set R1 := (x :: R).take p with hR1def
  have hR1eq : R1 = x :: R.take q := by rw [hR1def, hpq, List.take_succ_cons]
  have hR1len : R1.length = min q R.length + 1 := by
    rw [hR1eq]
    simp
  have hsucc : ∀ k2 : Nat, k2 + 1 < R1.length →
      d1.getD (slotOf p (bump p c) (k2 + 1)) ⊤ = ((R1.getD (k2 + 1) 0 : ℚ) : V) := by
    intro k2 hk
    have hkp : k2 + 1 < p := by omega
    rw [slot_bump_succ p c (k2 + 1) hc (by omega) hkp]
    simp only [Nat.add_sub_cancel]
    have hne : slotOf p c k2 ≠ c := slot_ne_cur p c k2 hc (by omega)
    have htr : d1.getD (slotOf p c k2) ⊤ = d.getD (slotOf p c k2) ⊤ := by
      rw [hd1def]
      exact getD_set_ne d c _ _ ⊤ (fun he => hne he.symm)
    have hk2R : k2 < R.length := by
      rw [hR1len] at hk
      omega
    rw [htr, hP1 k2 hk2R, hR1eq]
    show _ = (((R.take q).getD k2 0 : ℚ) : V)
    rw [getD_take R q k2 0 (by rw [hR1len] at hk; omega)]
  refine ⟨?_, ?_⟩
  · rw [hstep]
    refine ⟨rfl, hlen1, bump_lt p c hp, hm1.1, by rw [hR1def]; simpa using hRp, ?_, ?_, hm1.2⟩
    · -- recent inputs sit in their slots
      intro k hk
      show d1.getD (slotOf p (bump p c) k) ⊤ = ((R1.getD k 0 : ℚ) : V)
      cases k with
      | zero =>
        rw [slot_bump_zero p c hc, hget_c, hR1eq]
        rfl
      | succ k2 =>
        exact hsucc k2 hk
    · -- older slots still hold sentinels
      intro k hk1 hk2
      show d1.getD (slotOf p (bump p c) k) ⊤ = ⊤
      have hk0 : 1 ≤ k := by
        rw [hR1len] at hk1
        omega
      obtain ⟨k2, rfl⟩ : ∃ k2, k = k2 + 1 := ⟨k - 1, by omega⟩
      rw [slot_bump_succ p c (k2 + 1) hc (by omega) hk2]
      simp only [Nat.add_sub_cancel]
      have hne : slotOf p c k2 ≠ c := slot_ne_cur p c k2 hc (by omega)
      have htr : d1.getD (slotOf p c k2) ⊤ = d.getD (slotOf p c k2) ⊤ := by
        rw [hd1def]
        exact getD_set_ne d c _ _ ⊤ (fun he => hne he.symm)
      rw [htr]
      refine hP2 k2 ?_ (by omega)
      rw [hR1len] at hk1
      omega
  · rw [hstep]
    exact hm1.2

/- ------------------------------------------------------------------ -/
/- Runs of the Minimum indicator.                                      -/
/- ------------------------------------------------------------------ -/

/-- Evolution of the recent-inputs list along a run. -/
def recentFold (p : Nat) (R : List ℚ) (xs : List ℚ) : List ℚ :=
  xs.foldl (fun r x => (x :: r).take p) R

theorem minRunState_inv (p : Nat) (hp : 0 < p) :
    ∀ (xs R : List ℚ) (s : MinState), MinInv p R s →
      MinInv p (recentFold p R xs) (minRunState s xs) := by
  intro xs
  induction xs with
  | nil => intro R s hs; exact hs
  | cons x rest ih =>
    intro R s hs
    exact ih ((x :: R).take p) (minNexta s x).1 (minNexta_inv p hp R s hs x).1

/-- Under the invariant with a nonempty recent list, the least buffer value is
exactly the minimum of the recent inputs (in particular it is finite). -/
theorem minInv_value (p : Nat) (hp : 0 < p) (R : List ℚ) (s : MinState)
    (hs : MinInv p R s) (hR : R ≠ []) : dequeMin s.deque = ((qMin R : ℚ) : V) := by
  obtain ⟨hper, hlen, hc, hm, hRp, hP1, hP2, hMin⟩ := hs
  refine le_antisymm ?_ ?_
  · obtain ⟨k, hk, hgk⟩ := exists_getD_of_mem R 0 (qMin R) (qMin_mem R hR)
    have h1 : s.deque.getD (slotOf p s.cur_index k) ⊤ = ((qMin R : ℚ) : V) := by
      rw [hP1 k hk, hgk]
    rw [← h1]
    exact dequeMin_le _ _ (getD_mem _ _ ⊤ (by rw [hlen]; exact slotOf_lt p _ k hp))
  · refine le_dequeMin _ _ ?_
    intro y hy
    obtain ⟨j, hj, hgj⟩ := exists_getD_of_mem s.deque ⊤ y hy
    obtain ⟨k, hkp, hslot⟩ := slot_surj p s.cur_index j hc (by omega)
    by_cases hkR : k < R.length
    · have h2 : y = ((R.getD k 0 : ℚ) : V) := by rw [← hgj, ← hslot, hP1 k hkR]
      rw [h2]
      exact_mod_cast qMin_le R _ (getD_mem R k 0 hkR)
    · have h2 : y = ⊤ := by rw [← hgj, ← hslot, hP2 k (by omega) hkp]
      rw [h2]
      exact le_top

/-- Pointwise description of the Minimum outputs: the `i`-th output is the
minimum of the recent inputs after `i + 1` steps. -/
theorem minOutputs_spec (p : Nat) (hp : 0 < p) :
    ∀ (xs R : List ℚ) (s : MinState), MinInv p R s →
      ∀ i, i < xs.length →
        (minOutputs s xs).getD i ⊤ = ((qMin (recentFold p R (xs.take (i + 1))) : ℚ) : V) := by
  intro xs
  induction xs with
  | nil =>
    intro R s _ i hi
    simp at hi
  | cons x rest ih =>
    intro R s hs i hi
    have h1 := minNexta_inv p hp R s hs x
    cases i with
    | zero =>
      show (minNexta s x).2 = _
      have hpq : ∃ q, p = q + 1 := ⟨p - 1, by omega⟩
      obtain ⟨q, rfl⟩ := hpq
      have hne : ((x :: R).take (q + 1)) ≠ [] := by
        rw [List.take_succ_cons]
        simp
      rw [h1.2, minInv_value (q + 1) hp _ _ h1.1 hne]
      rfl
    | succ i2 =>
      show (minOutputs (minNexta s x).1 rest).getD i2 ⊤ = _
      exact ih ((x :: R).take p) (minNexta s x).1 h1.1 i2 (by simpa using hi)

theorem take_eq_take_min {α : Type} (l : List α) (n : Nat) :
    l.take n = l.take (min n l.length) := by
  rcases le_total n l.length with h | h
  · rw [min_eq_left h]
  · rw [min_eq_right h, take_all _ _ h, take_all _ _ le_rfl]

theorem recentFold_eq_take (p : Nat) :
    ∀ (ys R : List ℚ), R.length ≤ p → recentFold p R ys = (ys.reverse ++ R).take p := by
  intro ys
  induction ys with
  | nil =>
    intro R hR
    simp [recentFold, take_all R p hR]
  | cons x rest ih =>
    intro R hR
    show recentFold p ((x :: R).take p) rest = _
    rw [ih ((x :: R).take p) (by simp), List.reverse_cons, List.append_assoc]
    show (rest.reverse ++ (x :: R).take p).take p = (rest.reverse ++ ([x] ++ R)).take p
    rw [List.take_append_eq_append_take, List.take_append_eq_append_take, List.take_take]
    congr 2
    exact min_eq_left (by omega)

/-- The last `p` inputs (all of them while fewer than `p` have been seen). -/
def lastWindow (p : Nat) (xs : List ℚ) : List ℚ := xs.drop (xs.length - p)

theorem lastWindow_ne_nil (p : Nat) (hp : 0 < p) (ys : List ℚ) (hy : ys ≠ []) :
    lastWindow p ys ≠ [] := by
  have h1 : (lastWindow p ys).length = ys.length - (ys.length - p) := List.length_drop _ _
  have h2 : 0 < ys.length := List.length_pos.2 hy
  intro hcon
  rw [hcon] at h1
  simp at h1
  omega

theorem qMin_recentFold_window (p : Nat) (hp : 0 < p) (ys : List ℚ) (hy : ys ≠ []) :
    qMin (recentFold p [] ys) = qMin (lastWindow p ys) := by
  have h1 : recentFold p [] ys = ys.reverse.take p := by
    rw [recentFold_eq_take p ys [] (by simp), List.append_nil]
  have h2 : (lastWindow p ys).reverse = ys.reverse.take (ys.length - (ys.length - p)) :=
    reverse_drop_eq ys (ys.length - p)
  have h3 : ys.length - (ys.length - p) = min p ys.length := by omega
  have h4 : ys.reverse.take p = ys.reverse.take (min p ys.length) := by
    rw [take_eq_take_min ys.reverse p, List.length_reverse]
  have h5 : recentFold p [] ys = (lastWindow p ys).reverse := by
    rw [h1, h2, h3, h4]
  rw [h5, qMin_reverse _ (lastWindow_ne_nil p hp ys hy)]

/-- Pointwise description of the Minimum outputs from the fresh state (also
from any state whose buffer is all sentinels): brute-force window minima. -/
theorem minOutputs_window (p : Nat) (hp : 0 < p) (s : MinState) (hs : MinInv p [] s)
    (xs : List ℚ) (i : Nat) (hi : i < xs.length) :
    (minOutputs s xs).getD i ⊤ = ((qMin (lastWindow p (xs.take (i + 1))) : ℚ) : V) := by
  have h1 := minOutputs_spec p hp xs [] s hs i hi
  have hne : xs.take (i + 1) ≠ [] := by
    have hl : (xs.take (i + 1)).length = min (i + 1) xs.length := List.length_take _ _
    intro hcon
    rw [hcon] at hl
    simp at hl
    omega
  rw [h1, qMin_recentFold_window p hp (xs.take (i + 1)) hne]

theorem minOutputs_length (s : MinState) (xs : List ℚ) :
    (minOutputs s xs).length = xs.length := by
  induction xs generalizing s with
  | nil => rfl
  | cons x rest ih =>
    show ((minNexta s x).2 :: minOutputs (minNexta s x).1 rest).length = rest.length + 1
    rw [List.length_cons, ih]

theorem list_ext_getD {α : Type} (d : α) :
    ∀ (l1 l2 : List α), l1.length = l2.length →
      (∀ i, i < l1.length → l1.getD i d = l2.getD i d) → l1 = l2 := by
  intro l1
  induction l1 with
  | nil =>
    intro l2 hlen _
    cases l2 with
    | nil => rfl
    | cons b t => simp at hlen
  | cons a t ih =>
    intro l2 hlen hi
    cases l2 with
    | nil => simp at hlen
    | cons b t2 =>
      have h0 : a = b := hi 0 (by simp)
      have hrest : t = t2 := by
        refine ih t2 (by simpa using hlen) ?_
        intro i hilt
        exact hi (i + 1) (by simpa using hilt)
      rw [h0, hrest]

/- ------------------------------------------------------------------ -/
/- Reset and reachability of the Minimum indicator.                    -/
/- ------------------------------------------------------------------ -/

theorem set_append_length {α : Type} (A B : List α) (v : α) :
    (A ++ B).set A.length v = A ++ B.set 0 v := by
  induction A with
  | nil => rfl
  | cons a t ih => simpa using ih

theorem foldl_set_top (d : List V) :
    ∀ n, n ≤ d.length →
      (List.range n).foldl (fun e i => e.set i (⊤ : V)) d =
        List.replicate n (⊤ : V) ++ d.drop n := by
  intro n
  induction n with
  | zero => intro _; simp
  | succ m ih =>
    intro hn
    rw [List.range_succ, List.foldl_append, ih (by omega)]
    show ((List.replicate m (⊤ : V) ++ d.drop m).set m ⊤) = _
    have hlenrep : (List.replicate m (⊤ : V)).length = m := by simp
    have hsa : (List.replicate m (⊤ : V) ++ d.drop m).set m ⊤ =
        List.replicate m (⊤ : V) ++ (d.drop m).set 0 ⊤ := by
      have h0 := set_append_length (List.replicate m (⊤ : V)) (d.drop m) (⊤ : V)
      rwa [hlenrep] at h0
    rw [hsa, drop_eq_getD_cons d m ⊤ (by omega)]
    show List.replicate m (⊤ : V) ++ (⊤ :: d.drop (m + 1)) = _
    rw [List.replicate_succ', List.append_assoc, List.singleton_append]

theorem minReset_deque (s : MinState) (h : s.deque.length = s.period) :
    (minReset s).deque = List.replicate s.period (⊤ : V) := by
  show (List.range s.period).foldl (fun e i => e.set i (⊤ : V)) s.deque = _
  rw [foldl_set_top s.deque s.period (by omega), List.drop_eq_nil_of_le (by omega),
    List.append_nil]

theorem minReset_period (s : MinState) : (minReset s).period = s.period := rfl

theorem minReset_min_index (s : MinState) : (minReset s).min_index = s.min_index := rfl

theorem minReset_cur_index (s : MinState) : (minReset s).cur_index = s.cur_index := rfl

theorem minState_eq (s t : MinState) (h1 : s.period = t.period)
    (h2 : s.min_index = t.min_index) (h3 : s.cur_index = t.cur_index)
    (h4 : s.deque = t.deque) : s = t := by
  cases s
  cases t
  simp_all

/-- States of the Minimum tracker reachable from the fresh state by updates
and resets. -/
inductive MinReach (p : Nat) : MinState → Prop
  | fresh : MinReach p (minFresh p)
  | step (s : MinState) (x : ℚ) : MinReach p s → MinReach p (minNexta s x).1
  | reset (s : MinState) : MinReach p s → MinReach p (minReset s)

theorem minInv_fresh (p : Nat) (hp : 0 < p) : MinInv p [] (minFresh p) :=
  minInv_all_top p hp (minFresh p) rfl rfl hp hp

theorem minInv_reset (p : Nat) (hp : 0 < p) (R : List ℚ) (s : MinState)
    (hs : MinInv p R s) : MinInv p [] (minReset s) := by
  obtain ⟨hper, hlen, hc, hm, _⟩ := hs
  refine minInv_all_top p hp (minReset s) (by rw [minReset_period, hper]) ?_ ?_ ?_
  · rw [minReset_deque s (by omega), hper]
  · rw [minReset_cur_index]; exact hc
  · rw [minReset_min_index]; exact hm

theorem minReach_inv (p : Nat) (hp : 0 < p) (s : MinState) (hs : MinReach p s) :
    ∃ R, MinInv p R s := by
  induction hs with
  | fresh => exact ⟨[], minInv_fresh p hp⟩
  | step t x _ ih =>
    obtain ⟨R, hR⟩ := ih
    exact ⟨(x :: R).take p, (minNexta_inv p hp R t hR x).1⟩
  | reset t _ ih =>
    obtain ⟨R, hR⟩ := ih
    exact ⟨[], minInv_reset p hp R t hR⟩

/- ------------------------------------------------------------------ -/
/- The ExponentialMovingAverage indicator                              -/
/- (src/indicators/exponential_moving_average.rs).                     -/
/- ------------------------------------------------------------------ -/

/-- State of `ExponentialMovingAverage`: period, smoothing coefficient,
current value and the first-update flag. -/
structure EmaState where
  period : Nat
  k : ℚ
  current : ℚ
  is_new : Bool
deriving DecidableEq

/-- `ExponentialMovingAverage::nexta(f64)`: seed on the first update, then
`current = k * input + (1 - k) * current`. -/
def emaNexta (s : EmaState) (input : ℚ) : EmaState × ℚ :=
  if s.is_new then ({ s with is_new := false, current := input }, input)
  else
    let c := s.k * input + (1 - s.k) * s.current
    ({ s with current := c }, c)

/-- The just-constructed EMA state; the source sets `k = 1.0 / period`. -/
def emaFresh (p : Nat) : EmaState := ⟨p, 1 / (p : ℚ), 0, true⟩

/-- `ExponentialMovingAverage::new(period)`: fails iff `period = 0`. -/
def emaNew (p : Nat) : Option EmaState := if p = 0 then none else some (emaFresh p)

/-- `ExponentialMovingAverage::reset`. -/
def emaReset (s : EmaState) : EmaState := { s with current := 0, is_new := true }

def emaRunState (s : EmaState) (xs : List ℚ) : EmaState :=
  xs.foldl (fun t x => (emaNexta t x).1) s

def emaOutputs (s : EmaState) : List ℚ → List ℚ
  | [] => []
  | x :: rest => (emaNexta s x).2 :: emaOutputs (emaNexta s x).1 rest

theorem emaNexta_val (s : EmaState) (x : ℚ) : (emaNexta s x).2 = (emaNexta s x).1.current := by
  by_cases h : s.is_new <;> simp [emaNexta, h]

theorem emaNexta_not_new (s : EmaState) (x : ℚ) : (emaNexta s x).1.is_new = false := by
  by_cases h : s.is_new <;> simp [emaNexta, h]

theorem emaNexta_k (s : EmaState) (x : ℚ) : (emaNexta s x).1.k = s.k := by
  by_cases h : s.is_new <;> simp [emaNexta, h]

theorem emaRunState_k (s : EmaState) (xs : List ℚ) : (emaRunState s xs).k = s.k := by
  induction xs generalizing s with
  | nil => rfl
  | cons x rest ih =>
    show (emaRunState (emaNexta s x).1 rest).k = s.k
    rw [ih, emaNexta_k]

theorem emaRunState_not_new (s : EmaState) (xs : List ℚ) (h : xs ≠ []) :
    (emaRunState s xs).is_new = false := by
  induction xs generalizing s with
  | nil => exact absurd rfl h
  | cons x rest ih =>
    show (emaRunState (emaNexta s x).1 rest).is_new = false
    cases rest with
    | nil => exact emaNexta_not_new s x
    | cons y r2 =>
      have hne : (y :: r2) ≠ [] := by simp
      cases hnew : (emaNexta s x).1.is_new
      · exact ih (emaNexta s x).1 hne
      · exact ih (emaNexta s x).1 hne

theorem emaOutputs_length (s : EmaState) (xs : List ℚ) :
    (emaOutputs s xs).length = xs.length := by
  induction xs generalizing s with
  | nil => rfl
  | cons x rest ih =>
    show ((emaNexta s x).2 :: emaOutputs (emaNexta s x).1 rest).length = rest.length + 1
    rw [List.length_cons, ih]

theorem emaOutputs_last (s : EmaState) (xs : List ℚ) (h : xs ≠ []) :
    (emaOutputs s xs).getD (xs.length - 1) 0 = (emaRunState s xs).current := by
  induction xs generalizing s with
  | nil => exact absurd rfl h
  | cons x rest ih =>
    cases rest with
    | nil =>
      show (emaNexta s x).2 = (emaNexta s x).1.current
      exact emaNexta_val s x
    | cons y r2 =>
      have hlen : (x :: y :: r2).length - 1 = r2.length + 1 := by simp
      rw [hlen]
      show ((emaNexta s x).2 :: emaOutputs (emaNexta s x).1 (y :: r2)).getD
        (r2.length + 1) 0 = _
      rw [List.getD_cons_succ]
      have h2 := ih (emaNexta s x).1 (by simp)
      have h3 : (y :: r2).length - 1 = r2.length := by simp
      rw [h3] at h2
      rw [h2]
      rfl

/- ------------------------------------------------------------------ -/
/- The seeded EMA recurrence with an arbitrary coefficient (the        -/
/- reference computation the windowed smoother must reproduce).        -/
/- ------------------------------------------------------------------ -/

/-- EMA recurrence from seed `s` over `l` (source orientation of the windowed
smoother: `wsum = input * k + wsum * (1 - k)`). -/
def emaFrom (k : ℚ) (s : ℚ) (l : List ℚ) : ℚ :=
  l.foldl (fun a y => y * k + a * (1 - k)) s

/-- Plain EMA over a window: seeded with the first value, recurrence on the
rest; junk value 0 for the empty window. -/
def emaSeeded (k : ℚ) : List ℚ → ℚ
  | [] => 0
  | h :: t => emaFrom k h t

/-- A freshly constructed `ExponentialMovingAverage`-style smoother with
coefficient `k` run over `xs` (seed-on-first-update flag included), as the
spec prescribes for the windowed smoother's reference value. -/
def emaKRun (k : ℚ) (xs : List ℚ) : ℚ :=
  (xs.foldl (fun st x => if st.2 then (x, false) else (k * x + (1 - k) * st.1, false))
    ((0 : ℚ), true)).1

theorem emaFrom_nil (k s : ℚ) : emaFrom k s [] = s := rfl

theorem emaFrom_cons (k s y : ℚ) (l : List ℚ) :
    emaFrom k s (y :: l) = emaFrom k (y * k + s * (1 - k)) l := rfl

theorem emaFrom_append (k s : ℚ) (l : List ℚ) (x : ℚ) :
    emaFrom k s (l ++ [x]) = x * k + emaFrom k s l * (1 - k) := by
  show (l ++ [x]).foldl (fun a y => y * k + a * (1 - k)) s = _
  rw [List.foldl_append]
  rfl

theorem emaFrom_affine (k : ℚ) :
    ∀ (l : List ℚ) (s : ℚ), emaFrom k s l = emaFrom k 0 l + s * (1 - k) ^ l.length := by
  intro l
  induction l with
  | nil =>
    intro s
    simp [emaFrom_nil]
  | cons y t ih =>
    intro s
    rw [emaFrom_cons, ih, emaFrom_cons, ih (y * k + 0 * (1 - k)), List.length_cons]
    ring

/-- Shifting a full window one step: the algebraic heart of the windowed
smoother's eviction correction. -/
theorem window_shift (k a b x : ℚ) (t : List ℚ) :
    emaSeeded k (b :: (t ++ [x])) =
      x * k + emaSeeded k (a :: b :: t) * (1 - k)
        - a * (1 - k) ^ (t.length + 2) + b * (1 - k) ^ (t.length + 2) := by
  show emaFrom k b (t ++ [x]) = x * k + emaFrom k a (b :: t) * (1 - k) - _ + _
  rw [emaFrom_append, emaFrom_cons, emaFrom_affine k t b,
    emaFrom_affine k t (b * k + a * (1 - k))]
  ring

theorem emaKRun_loop (k : ℚ) :
    ∀ (l : List ℚ) (a : ℚ),
      (l.foldl (fun st x => if st.2 then (x, false) else (k * x + (1 - k) * st.1, false))
        ((a : ℚ), false)).1 = emaFrom k a l := by
  intro l
  induction l with
  | nil => intro a; rfl
  | cons y t ih =>
    intro a
    show (t.foldl _ ((k * y + (1 - k) * a, false) : ℚ × Bool)).1 = _
    rw [ih (k * y + (1 - k) * a), emaFrom_cons]
    have h : k * y + (1 - k) * a = y * k + a * (1 - k) := by ring
    rw [h]

theorem emaKRun_eq_seeded (k : ℚ) (xs : List ℚ) (h : xs ≠ []) :
    emaKRun k xs = emaSeeded k xs := by
  cases xs with
  | nil => exact absurd rfl h
  | cons x t =>
    show (t.foldl _ ((x : ℚ), false)).1 = emaFrom k x t
    exact emaKRun_loop k t x

/- ------------------------------------------------------------------ -/
/- The WindowedExponentialMovingAverage indicator                      -/
/- (src/indicators/windowed_exponential_moving_average.rs).            -/
/- ------------------------------------------------------------------ -/

theorem getD_append_len {α : Type} (l : List α) (v d : α) :
    (l ++ [v]).getD l.length d = v := by
  induction l with
  | nil => rfl
  | cons b t ih => simpa using ih

theorem getD_append_lt {α : Type} (l1 l2 : List α) (j : Nat) (d : α) (h : j < l1.length) :
    (l1 ++ l2).getD j d = l1.getD j d := by
  induction l1 generalizing j with
  | nil => simp at h
  | cons b t ih =>
    cases j with
    | zero => rfl
    | succ j2 => simpa using ih j2 (by simpa using h)

theorem mod_ne_shift (p j t : Nat) (hp : 0 < p) (ht1 : 1 ≤ t) (ht2 : t < p) :
    (j + t) % p ≠ j % p := by
  have h1 : (j % p + t) % p = (j + t) % p := Nat.mod_add_mod j p t
  rw [← h1]
  exact add_mod_ne p (j % p) t (Nat.mod_lt _ hp) ht1 ht2

/-- State of `WindowedExponentialMovingAverage`: period, write index, count of
observations seen (saturating at period), running weighted sum, coefficient
`k = 2 / (period + 1)`, circular buffer. -/
structure WemaState where
  period : Nat
  index : Nat
  count : Nat
  wsum : ℚ
  k : ℚ
  deque : List ℚ
deriving DecidableEq

/-- `WindowedExponentialMovingAverage::nexta(f64)`.  The source reads the
value being evicted, overwrites the slot, advances the write index, then
branches: seed on the very first observation; plain-EMA step while the window
grows; plain-EMA step plus eviction correction (with
`factor = (1 - k)^period` and the new oldest retained value read at the
advanced index) once the window is full. -/
def wemaNexta (s : WemaState) (input : ℚ) : WemaState × ℚ :=
  let old_val := s.deque.getD s.index 0
  let d1 := s.deque.set s.index input
  let i1 := bump s.period s.index
  if s.count = 0 then
    ({ s with deque := d1, index := i1, count := s.count + 1, wsum := input }, input)
  else if s.count < s.period then
    let w1 := input * s.k + s.wsum * (1 - s.k)
    ({ s with deque := d1, index := i1, count := s.count + 1, wsum := w1 }, w1)
  else
    let w1 := input * s.k + s.wsum * (1 - s.k)
    let factor := (1 - s.k) ^ s.period
    let w2 := w1 - old_val * factor + d1.getD i1 0 * factor
    ({ s with deque := d1, index := i1, wsum := w2 }, w2)

/-- The just-constructed windowed-smoother state, `k = 2 / (period + 1)`. -/
def wemaFresh (p : Nat) : WemaState :=
  ⟨p, 0, 0, 0, 2 / ((p : ℚ) + 1), List.replicate p 0⟩

/-- `WindowedExponentialMovingAverage::new(period)`: fails iff `period = 0`. -/
def wemaNew (p : Nat) : Option WemaState := if p = 0 then none else some (wemaFresh p)

/-- `WindowedExponentialMovingAverage::reset`. -/
def wemaReset (s : WemaState) : WemaState :=
  { s with
    index := 0
    count := 0
    wsum := 0
    deque := (List.range s.period).foldl (fun d i => d.set i (0 : ℚ)) s.deque }

def wemaRunState (s : WemaState) (xs : List ℚ) : WemaState :=
  xs.foldl (fun t x => (wemaNexta t x).1) s

def wemaOutputs (s : WemaState) : List ℚ → List ℚ
  | [] => []
  | x :: rest => (wemaNexta s x).2 :: wemaOutputs (wemaNexta s x).1 rest

theorem wemaNexta_seed (s : WemaState) (x : ℚ) (h : s.count = 0) :
    wemaNexta s x = (⟨s.period, bump s.period s.index, s.count + 1, x, s.k,
      s.deque.set s.index x⟩, x) := by
  simp only [wemaNexta]
  rw [if_pos h]

theorem wemaNexta_grow (s : WemaState) (x : ℚ) (h0 : ¬ s.count = 0)
    (h1 : s.count < s.period) :
    wemaNexta s x = (⟨s.period, bump s.period s.index, s.count + 1,
      x * s.k + s.wsum * (1 - s.k), s.k, s.deque.set s.index x⟩,
      x * s.k + s.wsum * (1 - s.k)) := by
  simp only [wemaNexta]
  rw [if_neg h0, if_pos h1]

theorem wemaNexta_full (s : WemaState) (x : ℚ) (h0 : ¬ s.count = 0)
    (h1 : ¬ s.count < s.period) :
    wemaNexta s x = (⟨s.period, bump s.period s.index, s.count,
      x * s.k + s.wsum * (1 - s.k) - s.deque.getD s.index 0 * (1 - s.k) ^ s.period
        + (s.deque.set s.index x).getD (bump s.period s.index) 0 * (1 - s.k) ^ s.period,
      s.k, s.deque.set s.index x⟩,
      x * s.k + s.wsum * (1 - s.k) - s.deque.getD s.index 0 * (1 - s.k) ^ s.period
        + (s.deque.set s.index x).getD (bump s.period s.index) 0 * (1 - s.k) ^ s.period) := by
  simp only [wemaNexta]
  rw [if_neg h0, if_neg h1]

/-- Run invariant of the windowed smoother, `c` being the full input history:
the buffer holds the last `min (c.length) p` inputs at their write positions,
the count saturates at `p`, and `wsum` is the plain EMA of the current
window. -/
def WInv (p : Nat) (c : List ℚ) (s : WemaState) : Prop :=
  s.period = p ∧ s.k = 2 / ((p : ℚ) + 1) ∧ s.deque.length = p ∧
  s.index = c.length % p ∧ s.count = min c.length p ∧
  (∀ j, j < c.length → c.length ≤ j + p → s.deque.getD (j % p) 0 = c.getD j 0) ∧
  (c ≠ [] → s.wsum = emaSeeded s.k (c.drop (c.length - p)))

theorem winv_fresh (p : Nat) : WInv p [] (wemaFresh p) := by
  refine ⟨rfl, rfl, by simp [wemaFresh], by simp [wemaFresh], by simp [wemaFresh], ?_, ?_⟩
  · intro j hj
    simp at hj
  · intro hcon
    exact absurd rfl hcon

theorem wema_pos_step (p : Nat) (hp : 0 < p) (c : List ℚ) (s : WemaState)
    (hlen : s.deque.length = p) (hidx : s.index = c.length % p)
    (hpos : ∀ j, j < c.length → c.length ≤ j + p → s.deque.getD (j % p) 0 = c.getD j 0)
    (x : ℚ) :
    ∀ j, j < c.length + 1 → c.length + 1 ≤ j + p →
      (s.deque.set s.index x).getD (j % p) 0 = (c ++ [x]).getD j 0 := by
  intro j hj1 hj2
  by_cases hje : j = c.length
  · subst hje
    rw [hidx, getD_set_self s.deque (c.length % p) x 0 (by rw [hlen]; exact Nat.mod_lt _ hp)]
    exact (getD_append_len c x 0).symm
  · have hjn : j < c.length := by omega
    have hmodne : c.length % p ≠ j % p := by
      obtain ⟨t, ht⟩ : ∃ t, c.length = j + t := ⟨c.length - j, by omega⟩
      rw [ht]
      exact mod_ne_shift p j t hp (by omega) (by omega)
    rw [hidx, getD_set_ne s.deque (c.length % p) (j % p) x 0 hmodne,
      hpos j hjn (by omega), getD_append_lt c [x] j 0 hjn]

/-- One update preserves the run invariant, and the returned value is the new
running weighted sum. -/
theorem wemaNexta_winv (p : Nat) (hp : 0 < p) (c : List ℚ) (s : WemaState)
    (hs : WInv p c s) (x : ℚ) :
    WInv p (c ++ [x]) (wemaNexta s x).1 ∧ (wemaNexta s x).2 = (wemaNexta s x).1.wsum := by
  obtain ⟨hper, hk, hlen, hidx, hcnt, hpos, hws⟩ := hs
  have hnlt : c.length % p < p := Nat.mod_lt _ hp
  have hi1 : bump s.period s.index = (c.length + 1) % p := by
    rw [hper, hidx, bump_eq_mod p _ hnlt, Nat.mod_add_mod]
  have hposnew := wema_pos_step p hp c s hlen hidx hpos x
  have hlennew : (c ++ [x]).length = c.length + 1 := by simp
  by_cases h0 : s.count = 0
  · -- very first observation: the history is empty
    have hc0 : c = [] := by
      rw [hcnt] at h0
      have hcl : c.length = 0 := by omega
      exact List.length_eq_zero.1 hcl
    subst hc0
    rw [wemaNexta_seed s x h0]
    refine ⟨⟨hper, hk, by rw [List.length_set]; exact hlen, ?_, ?_, ?_, ?_⟩, rfl⟩
    · show bump s.period s.index = ([] ++ [x] : List ℚ).length % p
      simpa using hi1
    · show s.count + 1 = min ([] ++ [x] : List ℚ).length p
      rw [h0]
      simp
      omega
    · intro j hj1 hj2
      exact hposnew j (by simpa using hj1) (by simpa using hj2)
    · intro _
      show (x : ℚ) = emaSeeded s.k (([] ++ [x]).drop (([] ++ [x] : List ℚ).length - p))
      have h1p : ([] ++ [x] : List ℚ).length - p = 0 := by
        simp
        omega
      rw [h1p, List.drop_zero]
      rfl
  · by_cases h1 : s.count < s.period
    · -- growing window: 0 < history < p
      have hcn : 0 < c.length := by
        rw [hcnt] at h0
        omega
      have hclt : c.length < p := by
        rw [hcnt, hper] at h1
        omega
      have hcne : c ≠ [] := by
        intro hcon
        rw [hcon] at hcn
        simp at hcn
      rw [wemaNexta_grow s x h0 h1]
      refine ⟨⟨hper, hk, by rw [List.length_set]; exact hlen, ?_, ?_, ?_, ?_⟩, rfl⟩
      · show bump s.period s.index = (c ++ [x]).length % p
        rw [hi1, hlennew]
      · show s.count + 1 = min (c ++ [x]).length p
        rw [hcnt, hlennew]
        omega
      · intro j hj1 hj2
        rw [hlennew] at hj1 hj2
        exact hposnew j hj1 hj2
      · intro _
        show x * s.k + s.wsum * (1 - s.k)
            = emaSeeded s.k ((c ++ [x]).drop ((c ++ [x]).length - p))
        have hdrop0 : (c ++ [x]).length - p = 0 := by
          rw [hlennew]
          omega
        have hdrop1 : c.length - p = 0 := by omega
        rw [hdrop0, List.drop_zero, hws hcne, hdrop1, List.drop_zero]
        cases c with
        | nil => exact absurd rfl hcne
        | cons h t =>
          show x * s.k + emaFrom s.k h t * (1 - s.k) = emaSeeded s.k ((h :: t) ++ [x])
          show x * s.k + emaFrom s.k h t * (1 - s.k) = emaFrom s.k h (t ++ [x])
          rw [emaFrom_append]
    · -- full window: p ≤ history, the eviction correction fires
      have hcge : p ≤ c.length := by
        rw [hcnt, hper] at h1
        omega
      have hcn : 0 < c.length := by omega
      have hcne : c ≠ [] := by
        intro hcon
        rw [hcon] at hcn
        simp at hcn
      have hold : s.deque.getD s.index 0 = c.getD (c.length - p) 0 := by
        have hmod : (c.length - p) % p = c.length % p := by
          conv_rhs => rw [← Nat.sub_add_cancel hcge]
          rw [Nat.add_mod_right]
        rw [hidx, ← hmod]
        exact hpos (c.length - p) (by omega) (by omega)
      have hnew9 : (s.deque.set s.index x).getD (bump s.period s.index) 0
          = (c ++ [x]).getD (c.length + 1 - p) 0 := by
        have hple : p ≤ c.length + 1 := by omega
        have hmod : (c.length + 1 - p) % p = (c.length + 1) % p := by
          conv_rhs => rw [← Nat.sub_add_cancel hple]
          rw [Nat.add_mod_right]
        rw [hi1, ← hmod]
        exact hposnew (c.length + 1 - p) (by omega) (by omega)
      rw [wemaNexta_full s x h0 h1]
      refine ⟨⟨hper, hk, by rw [List.length_set]; exact hlen, ?_, ?_, ?_, ?_⟩, rfl⟩
      · show bump s.period s.index = (c ++ [x]).length % p
        rw [hi1, hlennew]
      · show s.count = min (c ++ [x]).length p
        rw [hcnt, hlennew]
        omega
      · intro j hj1 hj2
        rw [hlennew] at hj1 hj2
        exact hposnew j hj1 hj2
      · intro _
        show x * s.k + s.wsum * (1 - s.k) - s.deque.getD s.index 0 * (1 - s.k) ^ s.period
            + (s.deque.set s.index x).getD (bump s.period s.index) 0 * (1 - s.k) ^ s.period
          = emaSeeded s.k ((c ++ [x]).drop ((c ++ [x]).length - p))
        rw [hold, hnew9, hws hcne, hper, hlennew]
        rw [drop_append_of_le c [x] (c.length + 1 - p) (by omega)]
        by_cases hp1 : p = 1
        · subst hp1
          have hq1 : c.length - 1 + 1 = c.length := by omega
          have hw1 : c.drop (c.length - 1) = [c.getD (c.length - 1) 0] := by
            rw [drop_eq_getD_cons c (c.length - 1) 0 (by omega), hq1, List.drop_length]
          have hq2 : c.length + 1 - 1 = c.length := by omega
          have hw2 : c.drop (c.length + 1 - 1) = [] := by
            rw [hq2, List.drop_length]
          rw [hw1, hw2, List.nil_append]
          have hx9 : (c ++ [x]).getD (c.length + 1 - 1) 0 = x := by
            rw [hq2]
            exact getD_append_len c x 0
          rw [hx9]
          show x * s.k + emaFrom s.k (c.getD (c.length - 1) 0) [] * (1 - s.k) - _ + _
            = emaFrom s.k x []
          rw [emaFrom_nil, emaFrom_nil]
          ring
        · have hp2 : 2 ≤ p := by omega
          have hWold : c.drop (c.length - p)
              = c.getD (c.length - p) 0 :: c.getD (c.length - p + 1) 0
                :: c.drop (c.length - p + 2) := by
            rw [drop_eq_getD_cons c (c.length - p) 0 (by omega)]
            congr 1
            rw [drop_eq_getD_cons c (c.length - p + 1) 0 (by omega)]
          have hnp1 : c.length + 1 - p = c.length - p + 1 := by omega
          have hWnew : c.drop (c.length + 1 - p)
              = c.getD (c.length - p + 1) 0 :: c.drop (c.length - p + 2) := by
            rw [hnp1, drop_eq_getD_cons c (c.length - p + 1) 0 (by omega)]
          rw [hWold, hWnew, List.cons_append]
          have hlt : (c.drop (c.length - p + 2)).length + 2 = p := by
            rw [List.length_drop]
            omega
          have hshift := window_shift s.k (c.getD (c.length - p) 0)
            (c.getD (c.length - p + 1) 0) x (c.drop (c.length - p + 2))
          rw [hlt] at hshift
          have hb9 : (c ++ [x]).getD (c.length + 1 - p) 0 = c.getD (c.length - p + 1) 0 := by
            rw [getD_append_lt c [x] _ 0 (by omega), hnp1]
          rw [hshift, hb9]

theorem wemaRunState_winv (p : Nat) (hp : 0 < p) :
    ∀ (xs c : List ℚ) (s : WemaState), WInv p c s →
      WInv p (c ++ xs) (wemaRunState s xs) := by
  intro xs
  induction xs with
  | nil =>
    intro c s hs
    simpa using hs
  | cons x rest ih =>
    intro c s hs
    have hstep := (wemaNexta_winv p hp c s hs x).1
    have hres := ih (c ++ [x]) (wemaNexta s x).1 hstep
    rw [List.append_assoc, List.singleton_append] at hres
    exact hres

/-- After at least `p` inputs, the running weighted sum is exactly the plain
EMA (coefficient `2/(p+1)`, seeded with the window's first value) of the last
`p` inputs. -/
theorem wema_wsum_window (p : Nat) (hp : 0 < p) (xs : List ℚ) (hlen : p ≤ xs.length) :
    (wemaRunState (wemaFresh p) xs).wsum
      = emaSeeded (2 / ((p : ℚ) + 1)) (xs.drop (xs.length - p)) := by
  have h1 := wemaRunState_winv p hp xs [] (wemaFresh p) (winv_fresh p)
  rw [List.nil_append] at h1
  obtain ⟨_, hk, _, _, _, _, hws⟩ := h1
  have hne : xs ≠ [] := by
    intro hcon
    rw [hcon] at hlen
    simp at hlen
    omega
  rw [hws hne, hk]

/- ------------------------------------------------------------------ -/
/- Bars, TrueRange and AverageTrueRange                                -/
/- (src/indicators/average_true_range.rs; the TrueRange source file    -/
/- itself is not part of the given sources).                           -/
/- ------------------------------------------------------------------ -/

/-- An OHLCV observation (the validated bar record).  The `open` field is
named `opn` because `open` is reserved in Lean. -/
structure Bar where
  opn : ℚ
  high : ℚ
  low : ℚ
  close : ℚ
  volume : ℚ
deriving DecidableEq

/-- Modelled from the spec: the state of the `TrueRange` indicator, whose
source file is missing from src/ (only its ATR caller is given); it remembers
the previous close, empty right after construction or reset. -/
structure TrueRangeState where
  prev_close : Option ℚ
deriving DecidableEq

/-- Modelled from the spec: `TrueRange` update on a bar.  Glossary: true range
= `max(high − low, |high − prev_close|, |prev_close − low|)`; on the first bar
there is no previous close and the true range is `high − low` (the spec's ATR
table annotates the first row with `tr = high - low`).  The stored close is
then replaced by the bar's close. -/
def trNexta (s : TrueRangeState) (b : Bar) : TrueRangeState × ℚ :=
  match s.prev_close with
  | none => (⟨some b.close⟩, b.high - b.low)
  | some pc => (⟨some b.close⟩, max (b.high - b.low) (max |b.high - pc| |pc - b.low|))

/-- Modelled from the spec: `TrueRange::new()`, infallible (visible in the ATR
constructor, which calls it without an error path). -/
def trFresh : TrueRangeState := ⟨none⟩

/-- State of `AverageTrueRange`: an exclusively owned `TrueRange` and EMA. -/
structure AtrState where
  true_range : TrueRangeState
  ema : EmaState
deriving DecidableEq

/-- `AverageTrueRange::new(period)`: `TrueRange::new()` cannot fail, so the
only error case is the owned EMA's (`period = 0`). -/
def atrNew (p : Nat) : Option AtrState :=
  match emaNew p with
  | none => none
  | some e => some ⟨trFresh, e⟩

def atrFresh (p : Nat) : AtrState := ⟨trFresh, emaFresh p⟩

/-- `AverageTrueRange::nexta(&T)`: the true range of the bar fed into the
owned EMA. -/
def atrNexta (s : AtrState) (b : Bar) : AtrState × ℚ :=
  let tr1 := trNexta s.true_range b
  let e1 := emaNexta s.ema tr1.2
  (⟨tr1.1, e1.1⟩, e1.2)

def atrOutputs (s : AtrState) : List Bar → List ℚ
  | [] => []
  | b :: rest => (atrNexta s b).2 :: atrOutputs (atrNexta s b).1 rest

/- Bar-input adapters of the three scalar indicators. -/

/-- `impl<T: Low> Nexta<&T> for Minimum`: feed the bar's `low()`. -/
def minNextaBar (s : MinState) (b : Bar) : MinState × V := minNexta s b.low

/-- `impl<T: Close> Nexta<&T> for ExponentialMovingAverage`: feed `close()`. -/
def emaNextaBar (s : EmaState) (b : Bar) : EmaState × ℚ := emaNexta s b.close

/-- `impl<T: Close> Nexta<&T> for WindowedExponentialMovingAverage`: feed
`close()`. -/
def wemaNextaBar (s : WemaState) (b : Bar) : WemaState × ℚ := wemaNexta s b.close

/- ------------------------------------------------------------------ -/
/- Bounds-checked variants: every partial operation of the update and  -/
/- reset paths (slice indexing, the usize→i32 conversion) is guarded,  -/
/- `none` marking exactly the panic conditions of the source.          -/
/- ------------------------------------------------------------------ -/

/-- `Minimum::nexta` with its three buffer accesses bounds-checked: the write
at `cur_index`, the read at `min_index` (buffer length is preserved by the
write), and the final read at the new cached index. -/
def minNextaChecked (s : MinState) (input : ℚ) : Option (MinState × V) :=
  if s.cur_index < s.deque.length then
    if s.min_index < s.deque.length then
      if (minNexta s input).1.min_index < s.deque.length then some (minNexta s input)
      else none
    else none
  else none

def minRunChecked (s : MinState) : List ℚ → Option MinState
  | [] => some s
  | x :: rest =>
    match minNextaChecked s x with
    | none => none
    | some t => minRunChecked t.1 rest

/-- `Minimum::reset` writes slots `0..period`; in bounds iff
`period ≤ deque.length`. -/
def minResetChecked (s : MinState) : Option MinState :=
  if s.period ≤ s.deque.length then some (minReset s) else none

/-- The `usize -> i32` conversion `(self.period).try_into().unwrap()` of the
windowed smoother: fails iff the value exceeds `i32::MAX = 2^31 - 1`. -/
def usizeToI32 (n : Nat) : Option Nat := if n < 2 ^ 31 then some n else none

/-- `WindowedExponentialMovingAverage::nexta` with its partial operations
guarded: the read/write at the write index; and, on the eviction branch only,
the `usize → i32` conversion of `period` and the read at the advanced
index. -/
def wemaNextaChecked (s : WemaState) (input : ℚ) : Option (WemaState × ℚ) :=
  if s.index < s.deque.length then
    if s.count = 0 ∨ s.count < s.period then some (wemaNexta s input)
    else
      match usizeToI32 s.period with
      | none => none
      | some _ =>
        if bump s.period s.index < s.deque.length then some (wemaNexta s input)
        else none
  else none

def wemaRunChecked (s : WemaState) : List ℚ → Option WemaState
  | [] => some s
  | x :: rest =>
    match wemaNextaChecked s x with
    | none => none
    | some t => wemaRunChecked t.1 rest

/-- `WindowedExponentialMovingAverage::reset` writes slots `0..period`. -/
def wemaResetChecked (s : WemaState) : Option WemaState :=
  if s.period ≤ s.deque.length then some (wemaReset s) else none

theorem minRunChecked_eq (p : Nat) (hp : 0 < p) :
    ∀ (xs R : List ℚ) (s : MinState), MinInv p R s →
      minRunChecked s xs = some (minRunState s xs) := by
  intro xs
  induction xs with
  | nil =>
    intro R s _
    rfl
  | cons x rest ih =>
    intro R s hs
    have hnext := (minNexta_inv p hp R s hs x).1
    have hlen : s.deque.length = p := hs.2.1
    have hc : s.cur_index < p := hs.2.2.1
    have hm : s.min_index < p := hs.2.2.2.1
    have hm1 : (minNexta s x).1.min_index < p := hnext.2.2.2.1
    show (match minNextaChecked s x with
      | none => none
      | some t => minRunChecked t.1 rest) = _
    have hco : minNextaChecked s x = some (minNexta s x) := by
      unfold minNextaChecked
      rw [if_pos (by omega), if_pos (by omega), if_pos (by omega)]
    rw [hco]
    exact ih ((x :: R).take p) (minNexta s x).1 hnext

theorem wemaNextaChecked_eq (p : Nat) (hp : 0 < p) (c : List ℚ) (s : WemaState)
    (hs : WInv p c s) (hsz : s.count < s.period ∨ s.period < 2 ^ 31) (x : ℚ) :
    wemaNextaChecked s x = some (wemaNexta s x) := by
  obtain ⟨hper, _, hlen, hidx, hcnt, _, _⟩ := hs
  have hidxlt : s.index < s.deque.length := by
    rw [hidx, hlen]
    exact Nat.mod_lt _ hp
  unfold wemaNextaChecked
  rw [if_pos hidxlt]
  by_cases hcc : s.count = 0 ∨ s.count < s.period
  · rw [if_pos hcc]
  · rw [if_neg hcc]
    have hp31 : s.period < 2 ^ 31 := by
      rcases hsz with h | h
      · exact absurd (Or.inr h) hcc
      · exact h
    have hconv : usizeToI32 s.period = some s.period := by
      unfold usizeToI32
      rw [if_pos hp31]
    rw [hconv]
    have hblt : bump s.period s.index < s.deque.length := by
      rw [hper, hlen]
      exact bump_lt p s.index hp
    rw [if_pos hblt]

theorem wemaRunChecked_eq (p : Nat) (hp : 0 < p) (hp31 : p < 2 ^ 31) :
    ∀ (xs c : List ℚ) (s : WemaState), WInv p c s →
      wemaRunChecked s xs = some (wemaRunState s xs) := by
  intro xs
  induction xs with
  | nil =>
    intro c s _
    rfl
  | cons x rest ih =>
    intro c s hs
    show (match wemaNextaChecked s x with
      | none => none
      | some t => wemaRunChecked t.1 rest) = _
    rw [wemaNextaChecked_eq p hp c s hs (Or.inr (by rw [hs.1]; exact hp31)) x]
    exact ih (c ++ [x]) (wemaNexta s x).1 (wemaNexta_winv p hp c s hs x).1

theorem wemaNexta_val (s : WemaState) (x : ℚ) :
    (wemaNexta s x).2 = (wemaNexta s x).1.wsum := by
  by_cases h0 : s.count = 0
  · rw [wemaNexta_seed s x h0]
  · by_cases h1 : s.count < s.period
    · rw [wemaNexta_grow s x h0 h1]
    · rw [wemaNexta_full s x h0 h1]

theorem wemaOutputs_length (s : WemaState) (xs : List ℚ) :
    (wemaOutputs s xs).length = xs.length := by
  induction xs generalizing s with
  | nil => rfl
  | cons x rest ih =>
    show ((wemaNexta s x).2 :: wemaOutputs (wemaNexta s x).1 rest).length = rest.length + 1
    rw [List.length_cons, ih]

theorem wemaOutputs_last (s : WemaState) (xs : List ℚ) (h : xs ≠ []) :
    (wemaOutputs s xs).getD (xs.length - 1) 0 = (wemaRunState s xs).wsum := by
  induction xs generalizing s with
  | nil => exact absurd rfl h
  | cons x rest ih =>
    cases rest with
    | nil =>
      show (wemaNexta s x).2 = (wemaNexta s x).1.wsum
      exact wemaNexta_val s x
    | cons y r2 =>
      have hlen : (x :: y :: r2).length - 1 = r2.length + 1 := by simp
      rw [hlen]
      show ((wemaNexta s x).2 :: wemaOutputs (wemaNexta s x).1 (y :: r2)).getD
        (r2.length + 1) 0 = _
      rw [List.getD_cons_succ]
      have h2 := ih (wemaNexta s x).1 (by simp)
      have h3 : (y :: r2).length - 1 = r2.length := by simp
      rw [h3] at h2
      rw [h2]
      rfl

theorem wemaRunChecked_append (s : WemaState) (ys zs : List ℚ) :
    wemaRunChecked s (ys ++ zs) =
      match wemaRunChecked s ys with
      | none => none
      | some t => wemaRunChecked t zs := by
  induction ys generalizing s with
  | nil => rfl
  | cons y rest ih =>
    simp only [List.cons_append, wemaRunChecked]
    cases h : wemaNextaChecked s y with
    | none => rfl
    | some t => exact ih t.1

/-- While the window is still filling (at most `p` total inputs), every
checked update succeeds. -/
theorem wemaRunChecked_prefix (p : Nat) (hp : 0 < p) :
    ∀ (ys c : List ℚ) (s : WemaState), WInv p c s → c.length + ys.length ≤ p →
      wemaRunChecked s ys = some (wemaRunState s ys) := by
  intro ys
  induction ys with
  | nil =>
    intro c s _ _
    rfl
  | cons y rest ih =>
    intro c s hs hle
    have hlen9 : c.length + rest.length + 1 ≤ p := by
      simp at hle
      omega
    have hcount : s.count < s.period := by
      have h1 : s.count = min c.length p := hs.2.2.2.2.1
      have h2 : s.period = p := hs.1
      rw [h1, h2]
      omega
    show (match wemaNextaChecked s y with
      | none => none
      | some t => wemaRunChecked t.1 rest) = _
    rw [wemaNextaChecked_eq p hp c s hs (Or.inl hcount) y]
    refine ih (c ++ [y]) (wemaNexta s y).1 (wemaNexta_winv p hp c s hs y).1 ?_
    simp
    omega

/-- Once the window is full, an update of a smoother whose period does not fit
in an `i32` hits the failing conversion. -/
theorem wemaRunChecked_cons_none (s : WemaState) (x : ℚ) (xs : List ℚ)
    (h : wemaNextaChecked s x = none) : wemaRunChecked s (x :: xs) = none := by
  show (match wemaNextaChecked s x with
    | none => none
    | some t => wemaRunChecked t.1 xs) = none
  rw [h]

theorem wemaRunChecked_some_then (s t : WemaState) (ys zs : List ℚ)
    (h : wemaRunChecked s ys = some t) :
    wemaRunChecked s (ys ++ zs) = wemaRunChecked t zs := by
  rw [wemaRunChecked_append, h]

theorem wemaChecked_full_fails (p : Nat) (hp : 0 < p) (hp31 : ¬ p < 2 ^ 31)
    (c : List ℚ) (s : WemaState) (hs : WInv p c s) (hfull : p ≤ c.length) (x : ℚ) :
    wemaNextaChecked s x = none := by
  obtain ⟨hper, _, hlen, hidx, hcnt, _, _⟩ := hs
  have hidxlt : s.index < s.deque.length := by
    rw [hidx, hlen]
    exact Nat.mod_lt _ hp
  unfold wemaNextaChecked
  rw [if_pos hidxlt]
  have hcc : ¬ (s.count = 0 ∨ s.count < s.period) := by
    intro hor
    rcases hor with h | h
    · rw [hcnt] at h
      omega
    · rw [hcnt, hper] at h
      omega
  rw [if_neg hcc]
  have hconv : usizeToI32 s.period = none := by
    unfold usizeToI32
    rw [if_neg (by rwa [hper])]
  rw [hconv]

/- ------------------------------------------------------------------ -/
/- Convexity of the EMA recurrence (outputs stay inside the range of   -/
/- the inputs seen so far).                                            -/
/- ------------------------------------------------------------------ -/

theorem qMin_cons (x : ℚ) (l : List ℚ) (h : l ≠ []) : qMin (x :: l) = min x (qMin l) := by
  cases l with
  | nil => exact absurd rfl h
  | cons y t => rfl

/-- Greatest element of a nonempty list of rationals (junk value 0 if
empty). -/
def qMax : List ℚ → ℚ
  | [] => 0
  | [x] => x
  | x :: y :: t => max x (qMax (y :: t))

theorem qMax_cons (x : ℚ) (l : List ℚ) (h : l ≠ []) : qMax (x :: l) = max x (qMax l) := by
  cases l with
  | nil => exact absurd rfl h
  | cons y t => rfl

theorem convex_le (k a x : ℚ) (h1 : 0 < k) (h2 : k ≤ 1) :
    min a x ≤ k * x + (1 - k) * a := by
  rcases le_total a x with h | h
  · rw [min_eq_left h]
    nlinarith
  · rw [min_eq_right h]
    nlinarith

theorem convex_ge (k a x : ℚ) (h1 : 0 < k) (h2 : k ≤ 1) :
    k * x + (1 - k) * a ≤ max a x := by
  rcases le_total a x with h | h
  · rw [max_eq_right h]
    nlinarith
  · rw [max_eq_left h]
    nlinarith

theorem ema_bounds_aux :
    ∀ (xs : List ℚ) (s : EmaState), 0 < s.k → s.k ≤ 1 → s.is_new = false →
      ∀ i, i < xs.length →
        min s.current (qMin (xs.take (i + 1))) ≤ (emaOutputs s xs).getD i 0 ∧
        (emaOutputs s xs).getD i 0 ≤ max s.current (qMax (xs.take (i + 1))) := by
  intro xs
  induction xs with
  | nil =>
    intro s _ _ _ i hi
    simp at hi
  | cons x rest ih =>
    intro s hk1 hk2 hnew i hi
    have hstep : emaNexta s x =
        ({ s with current := s.k * x + (1 - s.k) * s.current },
          s.k * x + (1 - s.k) * s.current) := by
      simp [emaNexta, hnew]
    have hcur : (emaNexta s x).1.current = s.k * x + (1 - s.k) * s.current := by
      rw [hstep]
    cases i with
    | zero =>
      show min s.current (qMin ((x :: rest).take 1)) ≤ (emaNexta s x).2 ∧
        (emaNexta s x).2 ≤ max s.current (qMax ((x :: rest).take 1))
      have htake : (x :: rest).take 1 = [x] := by
        rw [List.take_succ_cons, List.take_zero]
      rw [htake, hstep]
      exact ⟨convex_le s.k s.current x hk1 hk2, convex_ge s.k s.current x hk1 hk2⟩
    | succ i2 =>
      have hi2 : i2 < rest.length := by simpa using hi
      have hTne : rest.take (i2 + 1) ≠ [] := by
        have hl : (rest.take (i2 + 1)).length = min (i2 + 1) rest.length :=
          List.length_take _ _
        intro hcon
        rw [hcon] at hl
        simp at hl
        omega
      have hrec := ih (emaNexta s x).1 (by rw [emaNexta_k]; exact hk1)
        (by rw [emaNexta_k]; exact hk2) (emaNexta_not_new s x) i2 hi2
      have htake : (x :: rest).take (i2 + 1 + 1) = x :: rest.take (i2 + 1) :=
        List.take_succ_cons
      have hout : (emaOutputs s (x :: rest)).getD (i2 + 1) 0
          = (emaOutputs (emaNexta s x).1 rest).getD i2 0 := rfl
      rw [hout, htake]
      constructor
      · have h2 : min s.current (qMin (x :: rest.take (i2 + 1)))
            ≤ min (emaNexta s x).1.current (qMin (rest.take (i2 + 1))) := by
          rw [qMin_cons x _ hTne, ← min_assoc]
          refine min_le_min ?_ le_rfl
          rw [hcur]
          exact convex_le s.k s.current x hk1 hk2
        exact le_trans h2 hrec.1
      · have h2 : max (emaNexta s x).1.current (qMax (rest.take (i2 + 1)))
            ≤ max s.current (qMax (x :: rest.take (i2 + 1))) := by
          rw [qMax_cons x _ hTne, ← max_assoc]
          refine max_le_max ?_ le_rfl
          rw [hcur]
          exact convex_ge s.k s.current x hk1 hk2
        exact le_trans hrec.2 h2

theorem ema_bounds_fresh (p : Nat) (hp : 1 ≤ p) (xs : List ℚ) (i : Nat) (hi : i < xs.length) :
    qMin (xs.take (i + 1)) ≤ (emaOutputs (emaFresh p) xs).getD i 0 ∧
    (emaOutputs (emaFresh p) xs).getD i 0 ≤ qMax (xs.take (i + 1)) := by
  have hpq : (0 : ℚ) < (p : ℚ) := by exact_mod_cast hp
  have hk1 : 0 < (emaFresh p).k := by
    show 0 < 1 / (p : ℚ)
    exact one_div_pos.2 hpq
  have hk2 : (emaFresh p).k ≤ 1 := by
    show 1 / (p : ℚ) ≤ 1
    rw [div_le_one hpq]
    exact_mod_cast hp
  cases xs with
  | nil => simp at hi
  | cons x rest =>
    have hstep1 : emaNexta (emaFresh p) x
        = ({ emaFresh p with is_new := false, current := x }, x) := by
      simp [emaNexta, emaFresh]
    have hcur1 : (emaNexta (emaFresh p) x).1.current = x := by rw [hstep1]
    cases i with
    | zero =>
      show qMin ((x :: rest).take 1) ≤ (emaNexta (emaFresh p) x).2 ∧
        (emaNexta (emaFresh p) x).2 ≤ qMax ((x :: rest).take 1)
      have htake : (x :: rest).take 1 = [x] := by
        rw [List.take_succ_cons, List.take_zero]
      rw [htake, hstep1]
      exact ⟨le_rfl, le_rfl⟩
    | succ i2 =>
      have hi2 : i2 < rest.length := by simpa using hi
      have hTne : rest.take (i2 + 1) ≠ [] := by
        have hl : (rest.take (i2 + 1)).length = min (i2 + 1) rest.length :=
          List.length_take _ _
        intro hcon
        rw [hcon] at hl
        simp at hl
        omega
      have hrec := ema_bounds_aux rest (emaNexta (emaFresh p) x).1
        (by rw [emaNexta_k]; exact hk1) (by rw [emaNexta_k]; exact hk2)
        (emaNexta_not_new _ x) i2 hi2
      have htake : (x :: rest).take (i2 + 1 + 1) = x :: rest.take (i2 + 1) :=
        List.take_succ_cons
      have hout : (emaOutputs (emaFresh p) (x :: rest)).getD (i2 + 1) 0
          = (emaOutputs (emaNexta (emaFresh p) x).1 rest).getD i2 0 := rfl
      rw [hout, htake, qMin_cons x _ hTne, qMax_cons x _ hTne]
      rw [hcur1] at hrec
      exact hrec

/- ------------------------------------------------------------------ -/
/- Claims.                                                             -/
/- ------------------------------------------------------------------ -/

/-- C1: for every period `p ≥ 1` and every input sequence of length at least
`p`, the windowed smoother's output on the latest input equals, exactly over
rational arithmetic, the output of a freshly constructed EMA-style recurrence
with coefficient `k = 2/(p+1)` (seeded with the window's first value) fed
exactly the last `p` inputs. -/
theorem wema_refines_rolling_plain_ema (p : Nat) (hp : 1 ≤ p) (xs : List ℚ)
    (hlen : p ≤ xs.length) :
    (wemaOutputs (wemaFresh p) xs).getD (xs.length - 1) 0
      = emaKRun (2 / ((p : ℚ) + 1)) (lastWindow p xs) := by
  have hp0 : 0 < p := hp
  have hne : xs ≠ [] := by
    intro hcon
    rw [hcon] at hlen
    simp at hlen
    omega
  rw [wemaOutputs_last (wemaFresh p) xs hne, wema_wsum_window p hp0 xs hlen,
    emaKRun_eq_seeded _ _ (lastWindow_ne_nil p hp0 xs hne)]
  rfl

/-- C1 witness: period 2, inputs 1, 2, 3. -/
theorem wema_refines_rolling_plain_ema_witness :
    1 ≤ 2 ∧ 2 ≤ ([1, 2, 3] : List ℚ).length ∧
    (wemaOutputs (wemaFresh 2) [1, 2, 3]).getD (([1, 2, 3] : List ℚ).length - 1) 0
      = emaKRun (2 / (((2 : Nat) : ℚ) + 1)) (lastWindow 2 [1, 2, 3]) :=
  ⟨by norm_num, by simp,
    wema_refines_rolling_plain_ema 2 (by norm_num) [1, 2, 3] (by simp)⟩

/-- C2: for every window size `p ≥ 1` and input sequence, the value returned
at each step is the minimum of the last `min(step_count, p)` inputs, and the
sentinel is never returned. -/
theorem minimum_tracks_window (p : Nat) (hp : 1 ≤ p) (xs : List ℚ) (i : Nat)
    (hi : i < xs.length) :
    (minOutputs (minFresh p) xs).getD i ⊤
        = ((qMin (lastWindow p (xs.take (i + 1))) : ℚ) : V) ∧
    (minOutputs (minFresh p) xs).getD i ⊤ ≠ ⊤ := by
  have h := minOutputs_window p hp (minFresh p) (minInv_fresh p hp) xs i hi
  exact ⟨h, by rw [h]; exact coe_ne_top _⟩

/-- C2 witness: window 2, inputs 4, 1, 5, third output. -/
theorem minimum_tracks_window_witness :
    1 ≤ 2 ∧ 2 < ([4, 1, 5] : List ℚ).length ∧
    ((minOutputs (minFresh 2) [4, 1, 5]).getD 2 ⊤
        = ((qMin (lastWindow 2 (([4, 1, 5] : List ℚ).take (2 + 1))) : ℚ) : V) ∧
      (minOutputs (minFresh 2) [4, 1, 5]).getD 2 ⊤ ≠ ⊤) :=
  ⟨by norm_num, by simp, minimum_tracks_window 2 (by norm_num) [4, 1, 5] 2 (by simp)⟩

/-- C3 counterexample: with the source's `k = 1/period`, `EMA(3)` maps the
inputs 2, 5 to second output 3, not the claimed 3.5 (which would need
`k = 1/2 = 2/(period+1)`). -/
theorem ema_doc_values_false :
    (emaOutputs (emaFresh 3) [2, 5, 1, 6.25]).getD 1 0 = 3 ∧ (3 : ℚ) ≠ 3.5 := by
  norm_num [emaOutputs, emaNexta, emaFresh]

/-- C3 (amended): the first update after construction or reset returns the
input unchanged, every later update returns `k*input + (1-k)*previous` with
`k = 1/p`, and for period 3 the inputs 2, 5, 1, 6.25 produce
2, 3, 7/3, 131/36. -/
theorem ema_recurrence_spec (p : Nat) (hp : 1 ≤ p) (t : EmaState) (x y : ℚ)
    (xs : List ℚ) (hxs : xs ≠ []) :
    (emaNexta (emaFresh p) x).2 = x ∧
    (emaNexta (emaReset t) x).2 = x ∧
    (emaNexta (emaRunState (emaFresh p) xs) y).2
      = (1 / (p : ℚ)) * y
        + (1 - 1 / (p : ℚ)) * ((emaOutputs (emaFresh p) xs).getD (xs.length - 1) 0) ∧
    emaOutputs (emaFresh 3) [2, 5, 1, 6.25] = [2, 3, 7/3, 131/36] := by
  refine ⟨rfl, rfl, ?_, ?_⟩
  · have hnew : (emaRunState (emaFresh p) xs).is_new = false :=
      emaRunState_not_new _ _ hxs
    have hk : (emaRunState (emaFresh p) xs).k = 1 / (p : ℚ) := emaRunState_k _ _
    have hcur := emaOutputs_last (emaFresh p) xs hxs
    have hval : (emaNexta (emaRunState (emaFresh p) xs) y).2
        = (1 / (p : ℚ)) * y + (1 - 1 / (p : ℚ)) * (emaRunState (emaFresh p) xs).current := by
      simp [emaNexta, hnew, hk]
    rw [hval, hcur]
  · norm_num [emaOutputs, emaNexta, emaFresh]

/-- C3 witness: period 3, history 2, 5, 1, next input 6.25. -/
theorem ema_recurrence_spec_witness :
    1 ≤ 3 ∧ ([2, 5, 1] : List ℚ) ≠ [] ∧
    ((emaNexta (emaFresh 3) 2).2 = 2 ∧
      (emaNexta (emaReset (emaFresh 1)) 2).2 = 2 ∧
      (emaNexta (emaRunState (emaFresh 3) [2, 5, 1]) 6.25).2
        = (1 / ((3 : Nat) : ℚ)) * 6.25
          + (1 - 1 / ((3 : Nat) : ℚ))
            * ((emaOutputs (emaFresh 3) [2, 5, 1]).getD (([2, 5, 1] : List ℚ).length - 1) 0) ∧
      emaOutputs (emaFresh 3) [2, 5, 1, 6.25] = [2, 3, 7/3, 131/36]) :=
  ⟨by norm_num, by simp,
    ema_recurrence_spec 3 (by norm_num) (emaFresh 1) 2 6.25 [2, 5, 1] (by simp)⟩

/-- C4: for Minimum, ExponentialMovingAverage, WindowedExponentialMovingAverage
and AverageTrueRange, construction returns the `InvalidParameter` error iff the
period is 0. -/
theorem construction_fails_iff_zero (p : Nat) :
    ((minNew p = none) ↔ p = 0) ∧ ((emaNew p = none) ↔ p = 0) ∧
    ((wemaNew p = none) ↔ p = 0) ∧ ((atrNew p = none) ↔ p = 0) := by
  by_cases h : p = 0 <;> simp [minNew, emaNew, wemaNew, atrNew, h]

/-- C5 counterexample: on the spec's bar table, the second ATR(3) output of
the code is 29/30 (true range 0.9 fed into the EMA with `k = 1/3`), not the
claimed 0.95 (which would need `k = 1/2`). -/
theorem atr_doc_values_false :
    (atrOutputs (atrFresh 3) [⟨9.7, 10.0, 9.0, 9.5, 1000⟩,
      ⟨9.9, 10.4, 9.8, 10.2, 1000⟩]).getD 1 0 = 29/30 ∧ (29/30 : ℚ) ≠ 0.95 := by
  norm_num [atrOutputs, atrNexta, trNexta, emaNexta, atrFresh, trFresh, emaFresh,
    max_def, abs_eq_max_neg]

/-- C5 (amended): AverageTrueRange(3) on the four spec bars returns
1, 29/30, 97/90, 169/135: the true ranges 1, 0.9, 1.3, 1.6 fed into the owned
EMA whose coefficient is `k = 1/3`. -/
theorem atr_composition_values :
    (atrFresh 3).ema.k = 1/3 ∧
    atrOutputs (atrFresh 3) [⟨9.7, 10.0, 9.0, 9.5, 1000⟩, ⟨9.9, 10.4, 9.8, 10.2, 1000⟩,
      ⟨10.1, 10.7, 9.4, 9.7, 1000⟩, ⟨9.1, 9.2, 8.1, 8.4, 1000⟩]
      = [1, 29/30, 97/90, 169/135] := by
  constructor
  · norm_num [atrFresh, emaFresh]
  · norm_num [atrOutputs, atrNexta, trNexta, emaNexta, atrFresh, trFresh, emaFresh,
      max_def, abs_eq_max_neg]

/-- C6 counterexample: after one update of Minimum(2) the write index is 1;
reset leaves both indices untouched, so the reset state is not the
just-constructed state (whose indices are 0). -/
theorem min_reset_not_fresh :
    minReset ((minNexta (minFresh 2) 5).1) ≠ minFresh 2 ∧
    (minReset ((minNexta (minFresh 2) 5).1)).cur_index = 1 ∧ (minFresh 2).cur_index = 0 := by
  refine ⟨by decide, by decide, rfl⟩

/-- C6 (amended): reset restores every buffer slot to the sentinel, but keeps
the write index and the cached minimum index (and the period) at their
pre-reset values. -/
theorem min_reset_state (s : MinState) (h : s.deque.length = s.period) :
    (minReset s).deque = List.replicate s.period ⊤ ∧
    (minReset s).cur_index = s.cur_index ∧
    (minReset s).min_index = s.min_index ∧
    (minReset s).period = s.period :=
  ⟨minReset_deque s h, rfl, rfl, rfl⟩

/-- C6 witness: the state of Minimum(2) after one update. -/
theorem min_reset_state_witness :
    ((minNexta (minFresh 2) 5).1).deque.length = ((minNexta (minFresh 2) 5).1).period ∧
    ((minReset ((minNexta (minFresh 2) 5).1)).deque
        = List.replicate ((minNexta (minFresh 2) 5).1).period ⊤ ∧
      (minReset ((minNexta (minFresh 2) 5).1)).cur_index
        = ((minNexta (minFresh 2) 5).1).cur_index ∧
      (minReset ((minNexta (minFresh 2) 5).1)).min_index
        = ((minNexta (minFresh 2) 5).1).min_index ∧
      (minReset ((minNexta (minFresh 2) 5).1)).period
        = ((minNexta (minFresh 2) 5).1).period) :=
  ⟨by decide, min_reset_state _ (by decide)⟩

/-- C7: from every reachable state of Minimum(p), reset yields an instance
observationally equivalent to a fresh one: identical outputs on every future
input sequence (so the first output after reset is the first input), and reset
is idempotent on states. -/
theorem min_reset_equiv_fresh (p : Nat) (hp : 1 ≤ p) (s : MinState) (hs : MinReach p s) :
    (∀ xs, minOutputs (minReset s) xs = minOutputs (minFresh p) xs) ∧
    (∀ x : ℚ, (minNexta (minReset s) x).2 = ((x : ℚ) : V)) ∧
    minReset (minReset s) = minReset s := by
  have hp0 : 0 < p := hp
  obtain ⟨R, hR⟩ := minReach_inv p hp0 s hs
  have hres : MinInv p [] (minReset s) := minInv_reset p hp0 R s hR
  have houts : ∀ xs, minOutputs (minReset s) xs = minOutputs (minFresh p) xs := by
    intro xs
    refine list_ext_getD ⊤ _ _ (by rw [minOutputs_length, minOutputs_length]) ?_
    intro i hilt
    have hlen : i < xs.length := by rwa [minOutputs_length] at hilt
    rw [minOutputs_window p hp0 (minReset s) hres xs i hlen,
      minOutputs_window p hp0 (minFresh p) (minInv_fresh p hp0) xs i hlen]
  refine ⟨houts, ?_, ?_⟩
  · intro x
    have h1 : (minNexta (minReset s) x).2 = (minOutputs (minReset s) [x]).getD 0 ⊤ := rfl
    rw [h1, houts [x],
      minOutputs_window p hp0 (minFresh p) (minInv_fresh p hp0) [x] 0 (by simp)]
    have hLW : lastWindow p (([x] : List ℚ).take (0 + 1)) = [x] := by
      show lastWindow p [x] = [x]
      unfold lastWindow
      have h2 : ([x] : List ℚ).length - p = 0 := by
        simp only [List.length_singleton]
        omega
      rw [h2]
      rfl
    rw [hLW]
    rfl
  · have h1 : s.period = p := hR.1
    have h2 : s.deque.length = p := hR.2.1
    have hlen0 : s.deque.length = s.period := by omega
    have hd1 : (minReset s).deque = List.replicate s.period ⊤ := minReset_deque s hlen0
    have hlen1 : (minReset s).deque.length = (minReset s).period := by
      rw [hd1, minReset_period]
      simp
    refine minState_eq _ _ rfl rfl rfl ?_
    rw [minReset_deque (minReset s) hlen1, hd1, minReset_period]

/-- C7 witness: Minimum(1) after one update, reset, fed 3. -/
theorem min_reset_equiv_fresh_witness :
    minOutputs (minReset ((minNexta (minFresh 1) 7).1)) [3]
        = minOutputs (minFresh 1) [3] ∧
    minReset (minReset ((minNexta (minFresh 1) 7).1))
        = minReset ((minNexta (minFresh 1) 7).1) :=
  ⟨(min_reset_equiv_fresh 1 le_rfl _ (MinReach.step (minFresh 1) 7 MinReach.fresh)).1 [3],
    (min_reset_equiv_fresh 1 le_rfl _ (MinReach.step (minFresh 1) 7 MinReach.fresh)).2.2⟩

/-- C8 counterexample: the constructor accepts period `2^31`, but once the
window is full the `usize → i32` conversion `(self.period).try_into().unwrap()`
in the windowed smoother's eviction branch fails, so the update panics: the
checked run over `2^31 + 1` inputs returns `none`. -/
theorem wema_conversion_panics :
    wemaRunChecked (wemaFresh (2 ^ 31)) (List.replicate (2 ^ 31) 0 ++ [0]) = none := by
  have hp : 0 < 2 ^ 31 := by norm_num
  have hinv := wemaRunState_winv (2 ^ 31) hp (List.replicate (2 ^ 31) 0) []
    (wemaFresh (2 ^ 31)) (winv_fresh (2 ^ 31))
  rw [List.nil_append] at hinv
  have hpre : wemaRunChecked (wemaFresh (2 ^ 31)) (List.replicate (2 ^ 31) 0)
      = some (wemaRunState (wemaFresh (2 ^ 31)) (List.replicate (2 ^ 31) 0)) :=
    wemaRunChecked_prefix (2 ^ 31) hp (List.replicate (2 ^ 31) 0) [] (wemaFresh (2 ^ 31))
      (winv_fresh (2 ^ 31))
      (by rw [List.length_replicate, List.length_nil, Nat.zero_add])
  have hfail : wemaNextaChecked
      (wemaRunState (wemaFresh (2 ^ 31)) (List.replicate (2 ^ 31) 0)) 0 = none :=
    wemaChecked_full_fails (2 ^ 31) hp (by norm_num) _ _ hinv
      (by rw [List.length_replicate]) 0
  exact (wemaRunChecked_some_then (wemaFresh (2 ^ 31))
      (wemaRunState (wemaFresh (2 ^ 31)) (List.replicate (2 ^ 31) 0))
      (List.replicate (2 ^ 31) 0) [0] hpre).trans
    (wemaRunChecked_cons_none
      (wemaRunState (wemaFresh (2 ^ 31)) (List.replicate (2 ^ 31) 0)) 0 [] hfail)

/-- C8 (amended): for every period `p ≥ 1`, all buffer accesses of the Minimum
update and reset are in bounds and they never fail; the same holds for the
windowed smoother provided additionally `p ≤ i32::MAX` (so that the period
conversion in the eviction branch succeeds). -/
theorem updates_and_resets_total (p : Nat) (hp : 1 ≤ p) (xs : List ℚ) :
    minRunChecked (minFresh p) xs = some (minRunState (minFresh p) xs) ∧
    minResetChecked (minRunState (minFresh p) xs)
      = some (minReset (minRunState (minFresh p) xs)) ∧
    (p < 2 ^ 31 →
      wemaRunChecked (wemaFresh p) xs = some (wemaRunState (wemaFresh p) xs) ∧
      wemaResetChecked (wemaRunState (wemaFresh p) xs)
        = some (wemaReset (wemaRunState (wemaFresh p) xs))) := by
  have hp0 : 0 < p := hp
  have hminv := minRunState_inv p hp0 xs [] (minFresh p) (minInv_fresh p hp0)
  refine ⟨minRunChecked_eq p hp0 xs [] (minFresh p) (minInv_fresh p hp0), ?_, ?_⟩
  · unfold minResetChecked
    have h1 : (minRunState (minFresh p) xs).period = p := hminv.1
    have h2 : (minRunState (minFresh p) xs).deque.length = p := hminv.2.1
    rw [if_pos (by omega)]
  · intro h31
    have hwinv := wemaRunState_winv p hp0 xs [] (wemaFresh p) (winv_fresh p)
    rw [List.nil_append] at hwinv
    refine ⟨wemaRunChecked_eq p hp0 h31 xs [] (wemaFresh p) (winv_fresh p), ?_⟩
    unfold wemaResetChecked
    have h1 : (wemaRunState (wemaFresh p) xs).period = p := hwinv.1
    have h2 : (wemaRunState (wemaFresh p) xs).deque.length = p := hwinv.2.2.1
    rw [if_pos (by omega)]

/-- C8 witness: period 2, inputs 1, 2, 3. -/
theorem updates_and_resets_total_witness :
    minRunChecked (minFresh 2) [1, 2, 3] = some (minRunState (minFresh 2) [1, 2, 3]) ∧
    wemaRunChecked (wemaFresh 2) [1, 2, 3] = some (wemaRunState (wemaFresh 2) [1, 2, 3]) :=
  ⟨(updates_and_resets_total 2 (by norm_num) [1, 2, 3]).1,
    ((updates_and_resets_total 2 (by norm_num) [1, 2, 3]).2.2 (by norm_num)).1⟩

/-- C9: feeding a bar is exactly feeding its single relevant field — `low`
for Minimum, `close` for the two smoothers — with identical output and
successor state; bars agreeing on that field are indistinguishable, so the
remaining fields have no influence. -/
theorem bar_inputs_use_single_field (ms : MinState) (es : EmaState) (ws : WemaState)
    (b : Bar) :
    minNextaBar ms b = minNexta ms b.low ∧
    emaNextaBar es b = emaNexta es b.close ∧
    wemaNextaBar ws b = wemaNexta ws b.close ∧
    (∀ b2 : Bar, b2.low = b.low → minNextaBar ms b2 = minNextaBar ms b) ∧
    (∀ b2 : Bar, b2.close = b.close →
      emaNextaBar es b2 = emaNextaBar es b ∧ wemaNextaBar ws b2 = wemaNextaBar ws b) := by
  refine ⟨rfl, rfl, rfl, ?_, ?_⟩
  · intro b2 h
    show minNexta ms b2.low = minNexta ms b.low
    rw [h]
  · intro b2 h
    constructor
    · show emaNexta es b2.close = emaNexta es b.close
      rw [h]
    · show wemaNexta ws b2.close = wemaNexta ws b.close
      rw [h]

/-- C9 witness: two bars sharing only low 3 and close 4. -/
theorem bar_inputs_use_single_field_witness :
    minNextaBar (minFresh 2) ⟨1, 2, 3, 4, 7⟩ = minNexta (minFresh 2) 3 ∧
    emaNextaBar (emaFresh 2) ⟨1, 2, 3, 4, 7⟩ = emaNexta (emaFresh 2) 4 ∧
    minNextaBar (minFresh 2) ⟨9, 9, 3, 4, 5⟩ = minNextaBar (minFresh 2) ⟨1, 2, 3, 4, 7⟩ ∧
    emaNextaBar (emaFresh 2) ⟨9, 9, 3, 4, 5⟩ = emaNextaBar (emaFresh 2) ⟨1, 2, 3, 4, 7⟩ :=
  ⟨(bar_inputs_use_single_field (minFresh 2) (emaFresh 2) (wemaFresh 2) ⟨1, 2, 3, 4, 7⟩).1,
    (bar_inputs_use_single_field (minFresh 2) (emaFresh 2) (wemaFresh 2) ⟨1, 2, 3, 4, 7⟩).2.1,
    (bar_inputs_use_single_field (minFresh 2) (emaFresh 2) (wemaFresh 2)
      ⟨1, 2, 3, 4, 7⟩).2.2.2.1 ⟨9, 9, 3, 4, 5⟩ rfl,
    ((bar_inputs_use_single_field (minFresh 2) (emaFresh 2) (wemaFresh 2)
      ⟨1, 2, 3, 4, 7⟩).2.2.2.2 ⟨9, 9, 3, 4, 5⟩ rfl).1⟩

/-- C10: every EMA output since construction lies between the minimum and the
maximum of the inputs seen so far, because `k = 1/p` lies in `(0, 1]` and each
output is a convex combination of the inputs. -/
theorem ema_outputs_within_input_range (p : Nat) (hp : 1 ≤ p) (xs : List ℚ) (i : Nat)
    (hi : i < xs.length) :
    qMin (xs.take (i + 1)) ≤ (emaOutputs (emaFresh p) xs).getD i 0 ∧
    (emaOutputs (emaFresh p) xs).getD i 0 ≤ qMax (xs.take (i + 1)) :=
  ema_bounds_fresh p hp xs i hi

/-- C10 witness: period 2, inputs 1, 3, second output. -/
theorem ema_outputs_within_input_range_witness :
    1 ≤ 2 ∧ 1 < ([1, 3] : List ℚ).length ∧
    (qMin (([1, 3] : List ℚ).take (1 + 1)) ≤ (emaOutputs (emaFresh 2) [1, 3]).getD 1 0 ∧
      (emaOutputs (emaFresh 2) [1, 3]).getD 1 0 ≤ qMax (([1, 3] : List ℚ).take (1 + 1))) :=
  ⟨by norm_num, by simp, ema_outputs_within_input_range 2 (by norm_num) [1, 3] 1 (by simp)⟩

end TaRs
